import Mathlib

/-!
Shallow embedding of the image-analysis helper functions of
`Fluo_2D_nuclei_segmentation.ipynb` (2D fluorescence nuclei segmentation
notebook), together with proofs about them.

Images are modelled as functions `Fin h × Fin w → ℕ` (a 2D integer array:
nonzero values are labels / foreground, zero is background).  Library calls
(`scipy.ndimage.label`, `skimage.segmentation.relabel_sequential`,
`np.unique`) are modelled by executable Lean definitions matching their
documented semantics; the notebook's own functions are translated line by
line on top of them.
-/

namespace Fluo

/-! ### Generic finite reachability closure

`scipy.ndimage.label` and the union-find merge both need the transitive
closure of a finitely supported relation.  `reachN` iterates one-step
expansion of a reachable set; on a finite domain it stabilizes after at most
`dom.card + 1` steps, giving a decision procedure for
`Relation.ReflTransGen`. -/

section Closure

variable {α : Type} [DecidableEq α] (dom : Finset α) (R : α → α → Prop) [DecidableRel R]

/-- One expansion step: add every `dom`-element reachable in one `R`-step
from the current set. -/
def expandStep (S : Finset α) : Finset α :=
  S ∪ dom.filter (fun q => ∃ p ∈ S, R p q)

/-- The set of points reachable from `a` in at most `n` steps (all
intermediate points after the first lying in `dom`). -/
def reachN (n : ℕ) (a : α) : Finset α :=
  (expandStep dom R)^[n] {a}

/-- Executable reachability: membership in the stabilized expansion. -/
def reachF (a b : α) : Prop :=
  b ∈ reachN dom R (dom.card + 1) a

instance (a b : α) : Decidable (reachF dom R a b) := by
  unfold reachF; infer_instance

lemma subset_expandStep (S : Finset α) : S ⊆ expandStep dom R S :=
  Finset.subset_union_left

lemma reachN_succ (n : ℕ) (a : α) :
    reachN dom R (n + 1) a = expandStep dom R (reachN dom R n a) := by
  unfold reachN
  rw [Function.iterate_succ_apply']

lemma reachN_subset_succ (n : ℕ) (a : α) :
    reachN dom R n a ⊆ reachN dom R (n + 1) a := by
  rw [reachN_succ]
  exact subset_expandStep dom R _

lemma reachN_mono {n m : ℕ} (h : n ≤ m) (a : α) :
    reachN dom R n a ⊆ reachN dom R m a := by
  induction m with
  | zero => simp [Nat.le_zero.mp h]
  | succ m ih =>
    rcases Nat.lt_or_ge n (m + 1) with hlt | hge
    · exact (ih (Nat.lt_succ_iff.mp hlt)).trans (reachN_subset_succ dom R m a)
    · have : n = m + 1 := Nat.le_antisymm h hge
      subst this; exact Finset.Subset.refl _

lemma mem_reachN_reflTransGen {n : ℕ} {a b : α} (h : b ∈ reachN dom R n a) :
    Relation.ReflTransGen R a b := by
  induction n generalizing b with
  | zero =>
    have : b = a := by simpa [reachN] using h
    subst this; exact Relation.ReflTransGen.refl
  | succ n ih =>
    rw [reachN_succ] at h
    rcases Finset.mem_union.1 h with h | h
    · exact ih h
    · obtain ⟨-, p, hp, hR⟩ := Finset.mem_filter.1 h
      exact Relation.ReflTransGen.tail (ih hp) hR

lemma reflTransGen_mem_reachN (hdom : ∀ x y, R x y → y ∈ dom) {a b : α}
    (h : Relation.ReflTransGen R a b) : ∃ n, b ∈ reachN dom R n a := by
  induction h with
  | refl => exact ⟨0, by simp [reachN]⟩
  | tail hac hR ih =>
    obtain ⟨n, hn⟩ := ih
    refine ⟨n + 1, ?_⟩
    rw [reachN_succ]
    refine Finset.mem_union.2 (Or.inr (Finset.mem_filter.2 ⟨hdom _ _ hR, ?_⟩))
    exact ⟨_, hn, hR⟩

lemma reachN_stab {n : ℕ} {a : α}
    (h : reachN dom R (n + 1) a = reachN dom R n a) (k : ℕ) :
    reachN dom R (n + k) a = reachN dom R n a := by
  induction k with
  | zero => rfl
  | succ k ih =>
    have : n + (k + 1) = (n + k) + 1 := by omega
    rw [this, reachN_succ, ih, ← reachN_succ, h]

lemma reachN_card_growth {a : α} :
    ∀ n, (∀ m < n, reachN dom R (m + 1) a ≠ reachN dom R m a) →
      n + 1 ≤ (reachN dom R n a).card := by
  intro n
  induction n with
  | zero => intro _; simp [reachN]
  | succ n ih =>
    intro h
    have h1 : n + 1 ≤ (reachN dom R n a).card :=
      ih (fun m hm => h m (Nat.lt_succ_of_lt hm))
    have hne : reachN dom R (n + 1) a ≠ reachN dom R n a := h n (Nat.lt_succ_self n)
    have hss : reachN dom R n a ⊂ reachN dom R (n + 1) a :=
      lt_of_le_of_ne (reachN_subset_succ dom R n a) (fun e => hne e.symm)
    have := Finset.card_lt_card hss
    omega

lemma reachN_subset_insert (n : ℕ) (a : α) :
    reachN dom R n a ⊆ insert a dom := by
  induction n with
  | zero => intro x hx; simp [reachN] at hx; simp [hx]
  | succ n ih =>
    rw [reachN_succ]
    intro x hx
    rcases Finset.mem_union.1 hx with hx | hx
    · exact ih hx
    · exact Finset.mem_insert_of_mem (Finset.mem_filter.1 hx).1

lemma exists_reachN_fix (a : α) :
    ∃ m ≤ dom.card, reachN dom R (m + 1) a = reachN dom R m a := by
  by_contra hcon
  push_neg at hcon
  have hgrow : ∀ m < dom.card + 1, reachN dom R (m + 1) a ≠ reachN dom R m a := by
    intro m hm
    exact hcon m (Nat.lt_succ_iff.mp hm)
  have h1 := reachN_card_growth dom R (dom.card + 1) hgrow
  have h2 : (reachN dom R (dom.card + 1) a).card ≤ (insert a dom).card :=
    Finset.card_le_card (reachN_subset_insert dom R _ a)
  have h3 : (insert a dom).card ≤ dom.card + 1 := Finset.card_insert_le a dom
  omega

lemma reachF_iff_reflTransGen (hdom : ∀ x y, R x y → y ∈ dom) (a b : α) :
    reachF dom R a b ↔ Relation.ReflTransGen R a b := by
  constructor
  · exact fun h => mem_reachN_reflTransGen dom R h
  · intro h
    obtain ⟨n, hn⟩ := reflTransGen_mem_reachN dom R hdom h
    obtain ⟨m, hm, hfix⟩ := exists_reachN_fix dom R a
    rcases Nat.le_total n (dom.card + 1) with hle | hge
    · exact reachN_mono dom R hle a hn
    · have h1 : reachN dom R n a = reachN dom R m a := by
        have : n = m + (n - m) := by omega
        rw [this]; exact reachN_stab dom R hfix _
      have h2 : reachN dom R (dom.card + 1) a = reachN dom R m a := by
        have : dom.card + 1 = m + (dom.card + 1 - m) := by omega
        rw [this]; exact reachN_stab dom R hfix _
      rw [reachF, h2, ← h1]; exact hn

/-- Decision procedure for reflexive-transitive closure of a relation whose
steps stay inside a finite domain. -/
def decidableReflTransGen (hdom : ∀ x y, R x y → y ∈ dom) (a b : α) :
    Decidable (Relation.ReflTransGen R a b) :=
  decidable_of_iff _ (reachF_iff_reflTransGen dom R hdom a b)

end Closure

/-! ### Pixel grid and adjacency -/

/-- A pixel position in an `h × w` image (row, column). -/
abbrev Pos (h w : ℕ) := Fin h × Fin w

/-- A 2D integer image: nonzero values are labels / foreground, zero is
background. -/
abbrev Img (h w : ℕ) := Pos h w → ℕ

/-- Row-major scan index of a position (NumPy C order). -/
def idx {h w : ℕ} (p : Pos h w) : ℕ := p.1.val * w + p.2.val

lemma idx_inj {h w : ℕ} {p q : Pos h w} (e : idx p = idx q) : p = q := by
  unfold idx at e
  have hp2 := p.2.isLt
  have hq2 := q.2.isLt
  have h1 : p.1.val = q.1.val := by
    have e1 : (p.1.val * w + p.2.val) / w = p.1.val := by
      rw [mul_comm, Nat.mul_add_div (by omega), Nat.div_eq_of_lt hp2]; omega
    have e2 : (q.1.val * w + q.2.val) / w = q.1.val := by
      rw [mul_comm, Nat.mul_add_div (by omega), Nat.div_eq_of_lt hq2]; omega
    rw [← e1, ← e2, e]
  have h2 : p.2.val = q.2.val := by
    rw [h1] at e; omega
  exact Prod.ext (Fin.ext h1) (Fin.ext h2)

/-- One coordinate lies within distance 1 of another. -/
def near (a b : ℕ) : Prop := a ≤ b + 1 ∧ b ≤ a + 1

instance (a b : ℕ) : Decidable (near a b) := by unfold near; infer_instance

/-- 8-connectivity: distinct pixels whose row and column each differ by at
most 1 (the 3×3 neighborhood scan of `merge_touching_labels`). -/
def adj8 {h w : ℕ} (p q : Pos h w) : Prop :=
  p ≠ q ∧ near p.1.val q.1.val ∧ near p.2.val q.2.val

/-- 4-connectivity: the default cross-shaped structuring element of
`scipy.ndimage.label` (used by `remove_small_islands` and by
`assign_labels` with `connectivity=1`). -/
def adj4 {h w : ℕ} (p q : Pos h w) : Prop :=
  (p.1 = q.1 ∧ (p.2.val + 1 = q.2.val ∨ q.2.val + 1 = p.2.val)) ∨
  (p.2 = q.2 ∧ (p.1.val + 1 = q.1.val ∨ q.1.val + 1 = p.1.val))

instance {h w : ℕ} (p q : Pos h w) : Decidable (adj8 p q) := by
  unfold adj8; infer_instance

instance {h w : ℕ} (p q : Pos h w) : Decidable (adj4 p q) := by
  unfold adj4; infer_instance

lemma adj8_symm {h w : ℕ} {p q : Pos h w} (hpq : adj8 p q) : adj8 q p := by
  obtain ⟨hne, h1, h2⟩ := hpq
  exact ⟨fun e => hne e.symm, ⟨h1.2, h1.1⟩, ⟨h2.2, h2.1⟩⟩

lemma adj4_symm {h w : ℕ} {p q : Pos h w} (hpq : adj4 p q) : adj4 q p := by
  rcases hpq with ⟨e, hc⟩ | ⟨e, hc⟩
  · exact Or.inl ⟨e.symm, hc.symm⟩
  · exact Or.inr ⟨e.symm, hc.symm⟩

/-! ### Connected components of the foreground -/

section Components

variable {h w : ℕ} (A : Pos h w → Pos h w → Prop) [DecidableRel A]

/-- One connectivity step between two foreground pixels. -/
def fgStep (m : Img h w) (p q : Pos h w) : Prop := A p q ∧ m p ≠ 0 ∧ m q ≠ 0

instance (m : Img h w) : DecidableRel (fgStep A m) := fun p q => by
  unfold fgStep; infer_instance

/-- `p` and `q` lie in the same connected component of the foreground of
`m` (with respect to adjacency `A`). -/
def SameComp (m : Img h w) (p q : Pos h w) : Prop :=
  m p ≠ 0 ∧ Relation.ReflTransGen (fgStep A m) p q

instance (m : Img h w) (p q : Pos h w) : Decidable (SameComp A m p q) := by
  unfold SameComp
  have hd : Decidable (Relation.ReflTransGen (fgStep A m) p q) :=
    decidableReflTransGen Finset.univ (fgStep A m) (fun _ _ _ => Finset.mem_univ _) p q
  exact @instDecidableAnd _ _ _ hd

lemma SameComp.refl {m : Img h w} {p : Pos h w} (hp : m p ≠ 0) : SameComp A m p p :=
  ⟨hp, Relation.ReflTransGen.refl⟩

lemma SameComp.nonzero_left {m : Img h w} {p q : Pos h w} (hs : SameComp A m p q) :
    m p ≠ 0 := hs.1

lemma SameComp.nonzero_right {m : Img h w} {p q : Pos h w} (hs : SameComp A m p q) :
    m q ≠ 0 := by
  obtain ⟨hp, hr⟩ := hs
  induction hr with
  | refl => exact hp
  | tail _ hstep _ => exact hstep.2.2

lemma SameComp.trans {m : Img h w} {p q r : Pos h w} (h1 : SameComp A m p q)
    (h2 : SameComp A m q r) : SameComp A m p r :=
  ⟨h1.1, h1.2.trans h2.2⟩

lemma SameComp.symm (hA : ∀ {x y : Pos h w}, A x y → A y x) {m : Img h w}
    {p q : Pos h w} (hs : SameComp A m p q) : SameComp A m q p := by
  refine ⟨hs.nonzero_right A, ?_⟩
  have hsym : Symmetric (fgStep A m) := fun x y hxy => ⟨hA hxy.1, hxy.2.2, hxy.2.1⟩
  exact Relation.ReflTransGen.symmetric hsym hs.2

/-- The connected component of `p` in the foreground of `m` (empty when `p`
is background). -/
def comp (m : Img h w) (p : Pos h w) : Finset (Pos h w) :=
  Finset.univ.filter (SameComp A m p)

lemma mem_comp {m : Img h w} {p q : Pos h w} :
    q ∈ comp A m p ↔ SameComp A m p q := by
  unfold comp; simp

lemma self_mem_comp {m : Img h w} {p : Pos h w} (hp : m p ≠ 0) : p ∈ comp A m p :=
  (mem_comp A).2 (SameComp.refl A hp)

lemma comp_eq_of_sameComp (hA : ∀ {x y : Pos h w}, A x y → A y x) {m : Img h w}
    {p q : Pos h w} (hs : SameComp A m p q) : comp A m p = comp A m q := by
  ext r
  rw [mem_comp, mem_comp]
  constructor
  · intro hr; exact (hs.symm A hA).trans A hr
  · intro hr; exact hs.trans A hr

end Components

/-! ### Ranking a finite set of naturals

`np.unique` returns the distinct values of an array in increasing order, and
`skimage.segmentation.relabel_sequential` maps the distinct nonzero labels
order-preservingly onto `1, …, N`.  Both are modelled through the 1-based
rank of a value inside a finite set. -/

/-- The 1-based rank of `x` inside `S`: the number of elements of `S` that
are `≤ x`.  For `x ∈ S` this is the position of `x` in the sorted
enumeration of `S`. -/
def rankIn (S : Finset ℕ) (x : ℕ) : ℕ := (S.filter (fun y => y ≤ x)).card

lemma rankIn_pos {S : Finset ℕ} {x : ℕ} (hx : x ∈ S) : 1 ≤ rankIn S x := by
  have hmem : x ∈ S.filter (fun y => y ≤ x) := Finset.mem_filter.2 ⟨hx, le_refl x⟩
  have := Finset.card_pos.2 ⟨x, hmem⟩
  unfold rankIn; omega

lemma rankIn_le_card (S : Finset ℕ) (x : ℕ) : rankIn S x ≤ S.card :=
  Finset.card_le_card (Finset.filter_subset _ _)

lemma rankIn_inj {S : Finset ℕ} {x y : ℕ} (hx : x ∈ S) (hy : y ∈ S)
    (e : rankIn S x = rankIn S y) : x = y := by
  rcases lt_trichotomy x y with hlt | heq | hlt
  · exfalso
    have hsub : S.filter (fun z => z ≤ x) ⊆ S.filter (fun z => z ≤ y) :=
      fun z hz => Finset.mem_filter.2
        ⟨(Finset.mem_filter.1 hz).1, le_trans (Finset.mem_filter.1 hz).2 (le_of_lt hlt)⟩
    have hss : S.filter (fun z => z ≤ x) ⊂ S.filter (fun z => z ≤ y) := by
      rw [Finset.ssubset_iff_of_subset hsub]
      exact ⟨y, Finset.mem_filter.2 ⟨hy, le_refl y⟩,
        fun hmem => absurd (Finset.mem_filter.1 hmem).2 (not_le.2 hlt)⟩
    have := Finset.card_lt_card hss
    unfold rankIn at e; omega
  · exact heq
  · exfalso
    have hsub : S.filter (fun z => z ≤ y) ⊆ S.filter (fun z => z ≤ x) :=
      fun z hz => Finset.mem_filter.2
        ⟨(Finset.mem_filter.1 hz).1, le_trans (Finset.mem_filter.1 hz).2 (le_of_lt hlt)⟩
    have hss : S.filter (fun z => z ≤ y) ⊂ S.filter (fun z => z ≤ x) := by
      rw [Finset.ssubset_iff_of_subset hsub]
      exact ⟨x, Finset.mem_filter.2 ⟨hx, le_refl x⟩,
        fun hmem => absurd (Finset.mem_filter.1 hmem).2 (not_le.2 hlt)⟩
    have := Finset.card_lt_card hss
    unfold rankIn at e; omega

lemma rankIn_max {S : Finset ℕ} (hS : S.Nonempty) :
    rankIn S (S.max' hS) = S.card := by
  unfold rankIn
  congr 1
  apply Finset.filter_true_of_mem
  intro y hy
  exact Finset.le_max' S y hy

lemma rankIn_erase_max {S : Finset ℕ} (hS : S.Nonempty) {x : ℕ}
    (hx : x ∈ S.erase (S.max' hS)) :
    rankIn S x = rankIn (S.erase (S.max' hS)) x := by
  unfold rankIn
  congr 1
  ext y
  simp only [Finset.mem_filter, Finset.mem_erase]
  constructor
  · rintro ⟨hyS, hyx⟩
    refine ⟨⟨?_, hyS⟩, hyx⟩
    rintro rfl
    have hxlt : x < S.max' hS := by
      rcases Finset.mem_erase.1 hx with ⟨hne, hxS⟩
      exact lt_of_le_of_ne (Finset.le_max' S x hxS) hne
    omega
  · rintro ⟨⟨_, hyS⟩, hyx⟩
    exact ⟨hyS, hyx⟩

lemma rankIn_surj (S : Finset ℕ) :
    ∀ k, 1 ≤ k → k ≤ S.card → ∃ x ∈ S, rankIn S x = k := by
  have key : ∀ (n : ℕ) (T : Finset ℕ), T.card = n →
      ∀ k, 1 ≤ k → k ≤ n → ∃ x ∈ T, rankIn T x = k := by
    intro n
    induction n with
    | zero => intro T hT k hk1 hk2; omega
    | succ n ih =>
      intro T hn k hk1 hk2
      have hT : T.Nonempty := Finset.card_pos.1 (by omega)
      rcases Nat.eq_or_lt_of_le hk2 with heq | hlt
      · exact ⟨T.max' hT, T.max'_mem hT, by rw [rankIn_max hT, hn, heq]⟩
      · have hcard : (T.erase (T.max' hT)).card = n := by
          rw [Finset.card_erase_of_mem (T.max'_mem hT), hn]; omega
        obtain ⟨x, hxmem, hxrank⟩ := ih _ hcard k hk1 (by omega)
        refine ⟨x, Finset.mem_of_mem_erase hxmem, ?_⟩
        rw [rankIn_erase_max hT hxmem, hxrank]
  intro k hk1 hk2
  exact key S.card S rfl k hk1 hk2

lemma image_rankIn (S : Finset ℕ) : S.image (rankIn S) = Finset.Icc 1 S.card := by
  ext k
  simp only [Finset.mem_image, Finset.mem_Icc]
  constructor
  · rintro ⟨x, hx, rfl⟩
    exact ⟨rankIn_pos hx, rankIn_le_card S x⟩
  · rintro ⟨hk1, hk2⟩
    obtain ⟨x, hx, hrank⟩ := rankIn_surj S k hk1 hk2
    exact ⟨x, hx, hrank⟩

/-! ### Model of scipy.ndimage.label

`scipy.ndimage.label(input, structure)` assigns consecutive integer ids
`1, …, num_features` to the connected components of the nonzero pixels of
`input`, in the order the components are first met by a row-major scan;
background keeps `0`.  It is modelled here through the row-major-first
pixel (representative) of each component. -/

section Labeling

variable {h w : ℕ} (A : Pos h w → Pos h w → Prop) [DecidableRel A]

/-- `p` is the representative of its connected component: the foreground
pixel of the component met first by a row-major scan. -/
def isRep (m : Img h w) (p : Pos h w) : Prop :=
  m p ≠ 0 ∧ ∀ q, SameComp A m p q → idx p ≤ idx q

instance (m : Img h w) (p : Pos h w) : Decidable (isRep A m p) := by
  unfold isRep; infer_instance

/-- The component representatives of `m`, one per connected component. -/
def reps (m : Img h w) : Finset (Pos h w) := Finset.univ.filter (isRep A m)

/-- The number of connected components (scipy's `num_features`). -/
def numFeatures (m : Img h w) : ℕ := (reps A m).card

/-- Modelled library call `scipy.ndimage.label`: `0` on background, and on
foreground the 1-based rank, in row-major order of first encounter, of the
pixel's component among all components. -/
def labelOf (m : Img h w) (p : Pos h w) : ℕ :=
  if hp : m p = 0 then 0
  else rankIn ((reps A m).image idx)
    (((comp A m p).image idx).min'
      (Finset.Nonempty.image ⟨p, self_mem_comp A hp⟩ idx))

lemma min_comp_isRep {m : Img h w} {p : Pos h w} (hp : m p ≠ 0) :
    ∃ r, SameComp A m p r ∧
      idx r = ((comp A m p).image idx).min'
        (Finset.Nonempty.image ⟨p, self_mem_comp A hp⟩ idx) ∧
      isRep A m r := by
  have hne : ((comp A m p).image idx).Nonempty :=
    Finset.Nonempty.image ⟨p, self_mem_comp A hp⟩ idx
  obtain ⟨r, hrmem, hridx⟩ := Finset.mem_image.1 (Finset.min'_mem _ hne)
  have hsc : SameComp A m p r := (mem_comp A).1 hrmem
  refine ⟨r, hsc, hridx, hsc.nonzero_right A, ?_⟩
  intro q hq
  have hq' : q ∈ comp A m p := (mem_comp A).2 (hsc.trans A hq)
  have : ((comp A m p).image idx).min' hne ≤ idx q :=
    Finset.min'_le _ _ (Finset.mem_image_of_mem idx hq')
  omega

lemma labelOf_eq_zero_iff {m : Img h w} {p : Pos h w} :
    labelOf A m p = 0 ↔ m p = 0 := by
  constructor
  · intro he
    by_contra hp
    rw [labelOf, dif_neg hp] at he
    obtain ⟨r, _, hridx, hrep⟩ := min_comp_isRep A hp
    have hrS : idx r ∈ (reps A m).image idx :=
      Finset.mem_image_of_mem idx (Finset.mem_filter.2 ⟨Finset.mem_univ r, hrep⟩)
    rw [hridx] at hrS
    have := rankIn_pos hrS
    omega
  · intro hp; rw [labelOf, dif_pos hp]

lemma labelOf_min_mem {m : Img h w} {p : Pos h w} (hp : m p ≠ 0) :
    ((comp A m p).image idx).min'
        (Finset.Nonempty.image ⟨p, self_mem_comp A hp⟩ idx) ∈
      (reps A m).image idx := by
  obtain ⟨r, _, hridx, hrep⟩ := min_comp_isRep A hp
  rw [← hridx]
  exact Finset.mem_image_of_mem idx (Finset.mem_filter.2 ⟨Finset.mem_univ r, hrep⟩)

lemma labelOf_range {m : Img h w} {p : Pos h w} (hp : m p ≠ 0) :
    1 ≤ labelOf A m p ∧ labelOf A m p ≤ numFeatures A m := by
  rw [labelOf, dif_neg hp]
  constructor
  · exact rankIn_pos (labelOf_min_mem A hp)
  · calc rankIn ((reps A m).image idx) _ ≤ ((reps A m).image idx).card :=
          rankIn_le_card _ _
    _ ≤ (reps A m).card := Finset.card_image_le
    _ = numFeatures A m := rfl

lemma labelOf_eq_iff (hA : ∀ {x y : Pos h w}, A x y → A y x)
    {m : Img h w} {p q : Pos h w} (hp : m p ≠ 0) (hq : m q ≠ 0) :
    labelOf A m p = labelOf A m q ↔ SameComp A m p q := by
  constructor
  · intro he
    rw [labelOf, dif_neg hp, labelOf, dif_neg hq] at he
    have hip := labelOf_min_mem A hp
    have hiq := labelOf_min_mem A hq
    have hmineq := rankIn_inj hip hiq he
    obtain ⟨r, hrsc, hridx, -⟩ := min_comp_isRep A hp
    obtain ⟨s, hssc, hsidx, -⟩ := min_comp_isRep A hq
    have : idx r = idx s := by rw [hridx, hsidx, hmineq]
    have hrs : r = s := idx_inj this
    subst hrs
    exact hrsc.trans A (hssc.symm A hA)
  · intro hsc
    have hcomp : comp A m p = comp A m q := comp_eq_of_sameComp A hA hsc
    rw [labelOf, dif_neg hp, labelOf, dif_neg hq]
    simp only [hcomp]

lemma labelOf_fiber (hA : ∀ {x y : Pos h w}, A x y → A y x)
    {m : Img h w} {p : Pos h w} (hp : m p ≠ 0) :
    Finset.univ.filter (fun q => labelOf A m q = labelOf A m p) = comp A m p := by
  ext q
  rw [Finset.mem_filter, mem_comp]
  constructor
  · rintro ⟨-, he⟩
    by_cases hq : m q = 0
    · exfalso
      rw [(labelOf_eq_zero_iff A).2 hq] at he
      have := (labelOf_range A hp).1
      omega
    · exact ((labelOf_eq_iff A hA hq hp).1 he).symm A hA
  · intro hsc
    refine ⟨Finset.mem_univ q, ?_⟩
    exact ((labelOf_eq_iff A hA hp (hsc.nonzero_right A)).2 hsc).symm

end Labeling

lemma rankIn_Icc {N x : ℕ} (hx : x ∈ Finset.Icc 1 N) :
    rankIn (Finset.Icc 1 N) x = x := by
  rcases Finset.mem_Icc.1 hx with ⟨hx1, hx2⟩
  unfold rankIn
  have hflt : (Finset.Icc 1 N).filter (fun y => y ≤ x) = Finset.Icc 1 x := by
    ext y
    simp only [Finset.mem_filter, Finset.mem_Icc]
    omega
  rw [hflt, Nat.card_Icc]; omega

instance {h w : ℕ} : DecidableRel (adj4 (h := h) (w := w)) := fun _ _ =>
  inferInstance

instance {h w : ℕ} : DecidableRel (adj8 (h := h) (w := w)) := fun _ _ =>
  inferInstance

/-! ### remove_small_islands

Source (notebook cell "Functions"):
```
def remove_small_islands(binary_matrix, area_threshold):
    labeled_array, num_features = label(binary_matrix)
    for i in range(1, num_features + 1):
        component = (labeled_array == i)
        if component.sum() < area_threshold:
            binary_matrix[component] = 0
    return binary_matrix
```
`labeled_array` is computed once, before the loop, so later in-place zeroing
does not change the component masks. -/

/-- One iteration of the loop in `remove_small_islands`: if component `i`
has fewer than `t` pixels, zero its pixels in the current matrix. -/
def rsiStep {h w : ℕ} (lab : Pos h w → ℕ) (t : ℕ) (cur : Img h w) (i : ℕ) :
    Img h w :=
  if (Finset.univ.filter (fun q => lab q = i)).card < t then
    fun p => if lab p = i then 0 else cur p
  else cur

/-- `remove_small_islands(binary_matrix, area_threshold)`: label the
connected components (4-connectivity, scipy default), then zero every
component whose pixel count is below the threshold. -/
def remove_small_islands {h w : ℕ} (m : Img h w) (t : ℕ) : Img h w :=
  (List.range' 1 (numFeatures adj4 m)).foldl (rsiStep (labelOf adj4 m) t) m

lemma foldl_rsiStep {h w : ℕ} (lab : Pos h w → ℕ) (t : ℕ) (L : List ℕ)
    (cur : Img h w) (p : Pos h w) :
    (L.foldl (rsiStep lab t) cur) p =
      if lab p ∈ L ∧ (Finset.univ.filter (fun q => lab q = lab p)).card < t
      then 0 else cur p := by
  induction L generalizing cur with
  | nil => simp
  | cons i rest ih =>
    rw [List.foldl_cons, ih]
    by_cases hmem : lab p ∈ rest ∧
        (Finset.univ.filter (fun q => lab q = lab p)).card < t
    · rw [if_pos hmem, if_pos ⟨List.mem_cons_of_mem i hmem.1, hmem.2⟩]
    · rw [if_neg hmem]
      by_cases hpi : lab p = i
      · subst hpi
        unfold rsiStep
        by_cases hc : (Finset.univ.filter (fun q => lab q = lab p)).card < t
        · rw [if_pos hc, if_pos rfl, if_pos ⟨List.mem_cons_self _ _, hc⟩]
        · rw [if_neg hc, if_neg (fun hand => hc hand.2)]
      · have hstep : rsiStep lab t cur i p = cur p := by
          unfold rsiStep
          by_cases hc : (Finset.univ.filter (fun q => lab q = i)).card < t
          · rw [if_pos hc, if_neg hpi]
          · rw [if_neg hc]
        rw [hstep]
        have hcond : ¬(lab p ∈ i :: rest ∧
            (Finset.univ.filter (fun q => lab q = lab p)).card < t) := by
          rintro ⟨hmem', hc⟩
          rcases List.mem_cons.1 hmem' with he | hr
          · exact hpi he
          · exact hmem ⟨hr, hc⟩
        rw [if_neg hcond]

/-- C4: `remove_small_islands` zeroes exactly the pixels of connected
components (4-connectivity) with pixel count strictly below the threshold;
pixels of large components and background pixels are unchanged. -/
theorem remove_small_islands_spec {h w : ℕ} (m : Img h w) (t : ℕ) (p : Pos h w) :
    (m p ≠ 0 → (comp adj4 m p).card < t → remove_small_islands m t p = 0) ∧
    (m p ≠ 0 → t ≤ (comp adj4 m p).card → remove_small_islands m t p = m p) ∧
    (m p = 0 → remove_small_islands m t p = m p) := by
  have hfib : ∀ hp : m p ≠ 0,
      Finset.univ.filter (fun q => labelOf adj4 m q = labelOf adj4 m p) =
        comp adj4 m p :=
    fun hp => labelOf_fiber adj4 (fun hxy => adj4_symm hxy) hp
  unfold remove_small_islands
  rw [foldl_rsiStep]
  refine ⟨?_, ?_, ?_⟩
  · intro hp hcard
    rw [if_pos ?_]
    refine ⟨?_, by rw [hfib hp]; exact hcard⟩
    rcases labelOf_range adj4 hp with ⟨h1, h2⟩
    exact List.mem_range'_1.2 ⟨h1, by omega⟩
  · intro hp hcard
    rw [if_neg ?_]
    rintro ⟨-, hc⟩
    rw [hfib hp] at hc
    omega
  · intro hp
    rw [if_neg ?_]
    rintro ⟨hmem, -⟩
    rw [(labelOf_eq_zero_iff adj4).2 hp] at hmem
    have := (List.mem_range'_1.1 hmem).1
    omega

/-- Concrete check of C4: a 1×2 mask whose single 2-pixel component is
removed at threshold 3 but kept at threshold 2. -/
def rsiExample : Img 1 2 := fun _ => 200

theorem remove_small_islands_spec_witness :
    remove_small_islands rsiExample 3 (0, 0) = 0 ∧
      remove_small_islands rsiExample 2 (0, 0) = 200 := by
  constructor
  · exact (remove_small_islands_spec rsiExample 3 (0, 0)).1 (by decide) (by decide)
  · exact (remove_small_islands_spec rsiExample 2 (0, 0)).2.1 (by decide) (by decide)

/-! ### assign_labels

Source (notebook cell "Functions"):
```
def assign_labels(A, B, connectivity=1):
    structure = np.ones((3, 3)) if connectivity == 2 else None
    labeled_A, num_features = label(A, structure=structure)
    C = np.zeros_like(A)
    for i in range(1, num_features + 1):
        mask = labeled_A == i
        overlapping_labels = np.unique(B[mask & (B > 0)])
        C[mask] = overlapping_labels[0] if len(overlapping_labels) > 0 else 0
    return C
```
The notebook calls it with the default `connectivity=1` (4-connectivity).
`np.unique` returns the distinct values sorted ascending, so
`overlapping_labels[0]` is the smallest nonzero value of `B` over the
component. -/

/-- One loop iteration of `assign_labels`: every pixel of component `i` of
`A` receives the smallest nonzero `B`-value over that component, or `0` if
the component meets no nonzero `B` pixel. -/
def alStep {h w : ℕ} (lab : Pos h w → ℕ) (B : Img h w) (cur : Img h w) (i : ℕ) :
    Img h w := fun p =>
  if lab p = i then
    (if hS : ((Finset.univ.filter (fun q => lab q = i ∧ B q ≠ 0)).image B).Nonempty
     then ((Finset.univ.filter (fun q => lab q = i ∧ B q ≠ 0)).image B).min' hS
     else 0)
  else cur p

/-- `assign_labels(A, B)` with the notebook's default `connectivity=1`. -/
def assign_labels {h w : ℕ} (A B : Img h w) : Img h w :=
  (List.range' 1 (numFeatures adj4 A)).foldl (alStep (labelOf adj4 A) B)
    (fun _ => 0)

/-- The value written over component `i` by `alStep`. -/
def alVal {h w : ℕ} (lab : Pos h w → ℕ) (B : Img h w) (i : ℕ) : ℕ :=
  if hS : ((Finset.univ.filter (fun q => lab q = i ∧ B q ≠ 0)).image B).Nonempty
  then ((Finset.univ.filter (fun q => lab q = i ∧ B q ≠ 0)).image B).min' hS
  else 0

lemma foldl_alStep {h w : ℕ} (lab : Pos h w → ℕ) (B : Img h w) (L : List ℕ)
    (cur : Img h w) (p : Pos h w) :
    (L.foldl (alStep lab B) cur) p =
      if lab p ∈ L then alVal lab B (lab p) else cur p := by
  induction L generalizing cur with
  | nil => simp
  | cons i rest ih =>
    rw [List.foldl_cons, ih]
    by_cases hmem : lab p ∈ rest
    · rw [if_pos hmem, if_pos (List.mem_cons_of_mem i hmem)]
    · rw [if_neg hmem]
      by_cases hpi : lab p = i
      · rw [if_pos (by rw [hpi]; exact List.mem_cons_self _ _)]
        unfold alStep alVal
        rw [if_pos hpi, hpi]
      · have hcond : ¬ lab p ∈ i :: rest := by
          intro hmem'
          rcases List.mem_cons.1 hmem' with he | hr
          · exact hpi he
          · exact hmem hr
        rw [if_neg hcond]
        unfold alStep
        rw [if_neg hpi]

/-- C1 (amended): `assign_labels` writes on each connected component of `A`
(4-connectivity) the numerically smallest nonzero value of `B` over the
component's pixels, and `0` on background pixels and on components meeting
no nonzero pixel of `B`. -/
theorem assign_labels_spec {h w : ℕ} (A B : Img h w) (p : Pos h w) :
    (A p = 0 → assign_labels A B p = 0) ∧
    (A p ≠ 0 → (∀ q, SameComp adj4 A p q → B q = 0) →
      assign_labels A B p = 0) ∧
    (A p ≠ 0 → ∀ q₀, SameComp adj4 A p q₀ → B q₀ ≠ 0 →
      assign_labels A B p ≠ 0 ∧
      (∃ r, SameComp adj4 A p r ∧ B r = assign_labels A B p) ∧
      assign_labels A B p ≤ B q₀) := by
  unfold assign_labels
  rw [foldl_alStep]
  have hsymm : ∀ {x y : Pos h w}, adj4 x y → adj4 y x := fun hxy => adj4_symm hxy
  have hmem : A p ≠ 0 → labelOf adj4 A p ∈ List.range' 1 (numFeatures adj4 A) := by
    intro hp
    rcases labelOf_range adj4 hp with ⟨h1, h2⟩
    exact List.mem_range'_1.2 ⟨h1, by omega⟩
  have hflt : A p ≠ 0 → Finset.univ.filter
      (fun q => labelOf adj4 A q = labelOf adj4 A p ∧ B q ≠ 0) =
      (comp adj4 A p).filter (fun q => B q ≠ 0) := by
    intro hp
    ext q
    rw [Finset.mem_filter, Finset.mem_filter, mem_comp]
    constructor
    · rintro ⟨-, he, hB⟩
      have hq : A q ≠ 0 := by
        intro hq0
        rw [(labelOf_eq_zero_iff adj4).2 hq0] at he
        have := (labelOf_range adj4 hp).1
        omega
      exact ⟨((labelOf_eq_iff adj4 hsymm hq hp).1 he).symm adj4 hsymm, hB⟩
    · rintro ⟨hsc, hB⟩
      exact ⟨Finset.mem_univ q,
        ((labelOf_eq_iff adj4 hsymm hp (hsc.nonzero_right adj4)).2 hsc).symm, hB⟩
  refine ⟨?_, ?_, ?_⟩
  · intro hp
    rw [if_neg ?_]
    rw [(labelOf_eq_zero_iff adj4).2 hp]
    intro hmem0
    have := (List.mem_range'_1.1 hmem0).1
    omega
  · intro hp hzero
    rw [if_pos (hmem hp)]
    unfold alVal
    rw [dif_neg ?_]
    rw [hflt hp]
    rintro ⟨v, hv⟩
    obtain ⟨r, hr, -⟩ := Finset.mem_image.1 hv
    rcases Finset.mem_filter.1 hr with ⟨hrc, hrB⟩
    exact hrB (hzero r ((mem_comp adj4).1 hrc))
  · intro hp q₀ hq₀ hB₀
    rw [if_pos (hmem hp)]
    unfold alVal
    have hne : ((Finset.univ.filter
        (fun q => labelOf adj4 A q = labelOf adj4 A p ∧ B q ≠ 0)).image B).Nonempty := by
      rw [hflt hp]
      exact ⟨B q₀, Finset.mem_image_of_mem B
        (Finset.mem_filter.2 ⟨(mem_comp adj4).2 hq₀, hB₀⟩)⟩
    rw [dif_pos hne]
    obtain ⟨r, hr, hrval⟩ := Finset.mem_image.1 (Finset.min'_mem _ hne)
    have hr' : r ∈ (comp adj4 A p).filter (fun q => B q ≠ 0) := by
      rw [← hflt hp]; exact hr
    rcases Finset.mem_filter.1 hr' with ⟨hrc, hrB⟩
    refine ⟨by rw [← hrval]; exact hrB, ⟨r, (mem_comp adj4).1 hrc, hrval⟩, ?_⟩
    apply Finset.min'_le
    rw [hflt hp]
    exact Finset.mem_image_of_mem B (Finset.mem_filter.2 ⟨(mem_comp adj4).2 hq₀, hB₀⟩)

/-- Row-major (NumPy C order) list of all positions of an `h × w` image. -/
def posList (h w : ℕ) : List (Pos h w) :=
  (List.finRange h).bind (fun r => (List.finRange w).map (fun c => (r, c)))

/-- The reading of the claim under comparison: each component of `A`
receives the value of `B` at the component's scan-order-first pixel
carrying a nonzero `B`-value (rather than the numerically smallest such
value). -/
def assignLabelsScanFirst {h w : ℕ} (A B : Img h w) : Img h w := fun p =>
  if A p = 0 then 0
  else
    ((posList h w).find? (fun q =>
        decide (SameComp adj4 A p q) && decide (B q ≠ 0))).elim 0 B

/-- A 1×2 image: one component covering both pixels. -/
def alA : Img 1 2 := fun _ => 1

/-- Label matrix with 5 at the scan-order-first pixel and 2 at the second. -/
def alB : Img 1 2 := fun p => if p.2.val = 0 then 5 else 2

/-- C1 counterexample: on `alA`/`alB` the code returns the numerically
smallest overlapping label 2, not the scan-order-first label 5 claimed. -/
theorem assign_labels_scan_first_counterexample :
    assignLabelsScanFirst alA alB (0, 0) = 5 ∧
      assign_labels alA alB (0, 0) = 2 := by
  constructor
  · decide
  · decide

theorem assign_labels_spec_witness :
    assign_labels alA alB (0, 0) ≠ 0 ∧
      (∃ r, SameComp adj4 alA (0, 0) r ∧ alB r = assign_labels alA alB (0, 0)) ∧
      assign_labels alA alB (0, 0) ≤ alB (0, 1) :=
  (assign_labels_spec alA alB (0, 0)).2.2 (by decide) (0, 1) (by decide) (by decide)

/-! ### merge_touching_labels

Source (notebook cell "Functions"):
```
def merge_touching_labels(label_matrix):
    if label_matrix.max() == 0:
        return label_matrix.copy()
    padded = np.pad(label_matrix, 1, mode='constant', constant_values=0)
    touching = defaultdict(set)
    for i ...:
        for j ...:
            center = padded[i, j]
            if center == 0: continue
            neighborhood = padded[i-1:i+2, j-1:j+2].ravel()
            for neighbor in neighborhood:
                if neighbor != center and neighbor != 0:
                    touching[center].add(neighbor)
    all_labels = set(np.unique(label_matrix)) - {0}
    parent = {label: label for label in all_labels}
    def find(u): ...  (while loop with path compression)
    def union(u, v): pu, pv = find(u), find(v); if pu != pv: parent[pu] = pv
    for u, neighbors in touching.items():
        for v in neighbors:
            if u in parent and v in parent: union(u, v)
    label_map = {label: find(label) for label in all_labels}
    merged = np.zeros_like(...); merged[label_matrix == label] = root ...
    merged, _, _ = relabel_sequential(merged)
    return merged
```
The `find` while-loop is modelled with explicit fuel: the invariants below
show the chosen fuel always reaches the root, and path compression changes
no root, only chain lengths.  The iteration order of the python dict of
sets is unspecified; the pairs are processed here in increasing label
order, and every property proved is independent of that order. -/

/-- The distinct nonzero values (labels) of an image (`all_labels`). -/
def labelsOf {h w : ℕ} (m : Img h w) : Finset ℕ :=
  (Finset.univ.image m).erase 0

lemma mem_labelsOf {h w : ℕ} {m : Img h w} {u : ℕ} :
    u ∈ labelsOf m ↔ u ≠ 0 ∧ ∃ p, m p = u := by
  unfold labelsOf
  rw [Finset.mem_erase, Finset.mem_image]
  simp

lemma zero_not_mem_labelsOf {h w : ℕ} (m : Img h w) : 0 ∉ labelsOf m :=
  fun hmem => (mem_labelsOf.1 hmem).1 rfl

/-- Two labels touch: differing nonzero values carried by some pair of
8-adjacent pixels (the 3×3 neighborhood scan over the zero-padded array). -/
def touching {h w : ℕ} (m : Img h w) (u v : ℕ) : Prop :=
  u ≠ 0 ∧ v ≠ 0 ∧ u ≠ v ∧ ∃ p q : Pos h w, adj8 p q ∧ m p = u ∧ m q = v

instance {h w : ℕ} (m : Img h w) (u v : ℕ) : Decidable (touching m u v) := by
  unfold touching; infer_instance

lemma touching_mem_labelsOf {h w : ℕ} {m : Img h w} {u v : ℕ}
    (ht : touching m u v) : u ∈ labelsOf m ∧ v ∈ labelsOf m := by
  obtain ⟨hu, hv, -, p, q, -, hp, hq⟩ := ht
  exact ⟨mem_labelsOf.2 ⟨hu, p, hp⟩, mem_labelsOf.2 ⟨hv, q, hq⟩⟩

lemma touching_symm {h w : ℕ} {m : Img h w} {u v : ℕ} (ht : touching m u v) :
    touching m v u := by
  obtain ⟨hu, hv, hne, p, q, hadj, hp, hq⟩ := ht
  exact ⟨hv, hu, fun e => hne e.symm, q, p, adj8_symm hadj, hq, hp⟩

/-- The nonzero labels of `m`, listed in scan order of first occurrence
(the python code iterates a dict of sets whose order is unspecified; every
property proved below is independent of the order chosen here). -/
def labelList {h w : ℕ} (m : Img h w) : List ℕ :=
  (((posList h w).map m).filter (fun u => decide (u ≠ 0))).dedup

lemma mem_posList {h w : ℕ} (p : Pos h w) : p ∈ posList h w := by
  obtain ⟨r, c⟩ := p
  unfold posList
  rw [List.mem_bind]
  exact ⟨r, List.mem_finRange r, List.mem_map.2 ⟨c, List.mem_finRange c, rfl⟩⟩

lemma mem_labelList {h w : ℕ} {m : Img h w} {u : ℕ} :
    u ∈ labelList m ↔ u ∈ labelsOf m := by
  unfold labelList
  rw [List.mem_dedup, List.mem_filter, mem_labelsOf]
  constructor
  · rintro ⟨hmem, hdec⟩
    obtain ⟨p, -, hp⟩ := List.mem_map.1 hmem
    exact ⟨of_decide_eq_true hdec, p, hp⟩
  · rintro ⟨hne, p, hp⟩
    exact ⟨List.mem_map.2 ⟨p, mem_posList p, hp⟩, decide_eq_true hne⟩

/-- The ordered pairs of touching labels processed by the union loop. -/
def pairList {h w : ℕ} (m : Img h w) : List (ℕ × ℕ) :=
  (labelList m).bind (fun u =>
    ((labelList m).filter (fun v => decide (touching m u v))).map
      (fun v => (u, v)))

lemma mem_pairList {h w : ℕ} {m : Img h w} {x y : ℕ} :
    (x, y) ∈ pairList m ↔ touching m x y := by
  unfold pairList
  rw [List.mem_bind]
  constructor
  · rintro ⟨u, -, hmem⟩
    obtain ⟨v, hv, he⟩ := List.mem_map.1 hmem
    obtain ⟨-, hdec⟩ := List.mem_filter.1 hv
    rcases Prod.mk.injEq .. ▸ he with ⟨rfl, rfl⟩
    exact of_decide_eq_true hdec
  · intro ht
    obtain ⟨hx, hy⟩ := touching_mem_labelsOf ht
    refine ⟨x, mem_labelList.2 hx, List.mem_map.2 ⟨y, ?_, rfl⟩⟩
    exact List.mem_filter.2 ⟨mem_labelList.2 hy, decide_eq_true ht⟩

/-- Union-find `find` with explicit fuel (the python `while` loop). -/
def ufFind : ℕ → (ℕ → ℕ) → ℕ → ℕ
  | 0, _, u => u
  | n + 1, par, u => if par u = u then u else ufFind n par (par u)

/-- Union of the classes of one touching pair
(`parent[find(u)] = find(v)` when the roots differ). -/
def ufUnion (fuel : ℕ) (par : ℕ → ℕ) (uv : ℕ × ℕ) : ℕ → ℕ :=
  if ufFind fuel par uv.1 = ufFind fuel par uv.2 then par
  else Function.update par (ufFind fuel par uv.1) (ufFind fuel par uv.2)

/-- Fuel bound used for every find call of one merge run. -/
def fuelOf {h w : ℕ} (m : Img h w) : ℕ := (pairList m).length + 1

/-- The parent map after processing every touching pair. -/
def finalParent {h w : ℕ} (m : Img h w) : ℕ → ℕ :=
  (pairList m).foldl (ufUnion (fuelOf m)) id

/-- Root (class representative) of a label after all unions (`find(label)`
in the construction of `label_map`). -/
def rootOf {h w : ℕ} (m : Img h w) (u : ℕ) : ℕ :=
  ufFind (fuelOf m) (finalParent m) u

/-- The matrix with every label replaced by its class root (`merged`). -/
def mergedMat {h w : ℕ} (m : Img h w) : Img h w := fun p =>
  if m p = 0 then 0 else rootOf m (m p)

/-- Modelled library call `skimage.segmentation.relabel_sequential`: maps
the distinct nonzero values order-preservingly onto `1, …, N` and keeps
background at `0`. -/
def relabelSeq {h w : ℕ} (m : Img h w) : Img h w := fun p =>
  if m p = 0 then 0 else rankIn (labelsOf m) (m p)

/-- `merge_touching_labels(label_matrix)`. -/
def merge_touching_labels {h w : ℕ} (m : Img h w) : Img h w :=
  if labelsOf m = ∅ then m else relabelSeq (mergedMat m)

/-! #### Union-find correctness -/

/-- Apply a parent map `n` times. -/
def iterPar (par : ℕ → ℕ) : ℕ → ℕ → ℕ
  | 0, u => u
  | n + 1, u => par (iterPar par n u)

/-- `u` is a root of the parent forest. -/
def isRoot (par : ℕ → ℕ) (u : ℕ) : Prop := par u = u

lemma iterPar_head (par : ℕ → ℕ) (n u : ℕ) :
    iterPar par (n + 1) u = iterPar par n (par u) := by
  induction n with
  | zero => rfl
  | succ n ih =>
    show par (iterPar par (n + 1) u) = iterPar par (n + 1) (par u)
    rw [ih]; rfl

lemma iterPar_of_isRoot {par : ℕ → ℕ} {u : ℕ} (hu : isRoot par u) (k : ℕ) :
    iterPar par k u = u := by
  induction k with
  | zero => rfl
  | succ k ih => show par (iterPar par k u) = u; rw [ih]; exact hu

lemma ufFind_eq_iterPar {par : ℕ → ℕ} :
    ∀ n d u, d ≤ n → isRoot par (iterPar par d u) →
      ufFind n par u = iterPar par d u := by
  intro n
  induction n with
  | zero =>
    intro d u hd hroot
    have : d = 0 := Nat.le_zero.1 hd
    subst this; rfl
  | succ n ih =>
    intro d u hd hroot
    by_cases hu : par u = u
    · show ufFind (n + 1) par u = _
      rw [ufFind, if_pos hu, iterPar_of_isRoot hu]
    · cases d with
      | zero => exact absurd hroot hu
      | succ d =>
        rw [iterPar_head] at hroot
        show ufFind (n + 1) par u = _
        rw [ufFind, if_neg hu, iterPar_head]
        exact ih d (par u) (by omega) hroot

lemma isRoot_ufFind {par : ℕ → ℕ} {n d u : ℕ} (hd : d ≤ n)
    (hroot : isRoot par (iterPar par d u)) : isRoot par (ufFind n par u) := by
  rw [ufFind_eq_iterPar n d u hd hroot]; exact hroot

lemma ufFind_id (n u : ℕ) : ufFind n id u = u := by
  cases n with
  | zero => rfl
  | succ n => rw [ufFind]; exact if_pos rfl

/-- Every chain of the parent map reaches a fixpoint within `b` steps. -/
def Settles (par : ℕ → ℕ) (b : ℕ) : Prop :=
  ∀ u, ∃ d ≤ b, isRoot par (iterPar par d u)

lemma Settles.mono {par : ℕ → ℕ} {b b' : ℕ} (hb : b ≤ b') (hs : Settles par b) :
    Settles par b' := by
  intro u
  obtain ⟨d, hd, hroot⟩ := hs u
  exact ⟨d, le_trans hd hb, hroot⟩

lemma settles_id (b : ℕ) : Settles id b :=
  fun _ => ⟨0, Nat.zero_le b, rfl⟩

lemma ufFind_settles {par : ℕ → ℕ} {b n : ℕ} (hs : Settles par b) (hb : b ≤ n)
    (u : ℕ) : isRoot par (ufFind n par u) := by
  obtain ⟨d, hd, hroot⟩ := hs u
  exact isRoot_ufFind (le_trans hd hb) hroot

/-- After `parent[ru] = rv` (`ru`, `rv` distinct roots), every chain still
settles, with a bound one larger. -/
lemma settles_update {par : ℕ → ℕ} {b ru rv : ℕ} (hs : Settles par b)
    (hru : isRoot par ru) (hrv : isRoot par rv) (hne : ru ≠ rv) :
    Settles (Function.update par ru rv) (b + 1) := by
  have hrv' : isRoot (Function.update par ru rv) rv := by
    unfold isRoot
    rw [Function.update_noteq (fun e => hne e.symm)]
    exact hrv
  have hstep1 : ∀ x, x = ru →
      isRoot (Function.update par ru rv) (iterPar (Function.update par ru rv) 1 x) := by
    intro x hx
    have h1 : iterPar (Function.update par ru rv) 1 x = rv := by
      show Function.update par ru rv (iterPar (Function.update par ru rv) 0 x) = rv
      show Function.update par ru rv x = rv
      rw [hx, Function.update_same]
    rw [h1]
    exact hrv'
  have key : ∀ d u, isRoot par (iterPar par d u) →
      ∃ d' ≤ d + 1,
        isRoot (Function.update par ru rv) (iterPar (Function.update par ru rv) d' u) := by
    intro d
    induction d with
    | zero =>
      intro u hu
      by_cases heq : u = ru
      · exact ⟨1, le_refl 1, hstep1 u heq⟩
      · refine ⟨0, Nat.zero_le 1, ?_⟩
        show Function.update par ru rv u = u
        rw [Function.update_noteq heq]
        exact hu
    | succ d ih =>
      intro u hu
      by_cases heq : u = ru
      · exact ⟨1, by omega, hstep1 u heq⟩
      · rw [iterPar_head] at hu
        obtain ⟨d', hd', hroot'⟩ := ih (par u) hu
        refine ⟨d' + 1, by omega, ?_⟩
        rw [iterPar_head, Function.update_noteq heq]
        exact hroot'
  intro u
  obtain ⟨d, hd, hroot⟩ := hs u
  obtain ⟨d', hd', hroot'⟩ := key d u hroot
  exact ⟨d', by omega, hroot'⟩

/-- After `parent[ru] = rv`, the root of `u` becomes `rv` if it was `ru`,
and is unchanged otherwise. -/
lemma ufFind_update {par : ℕ → ℕ} {b F ru rv : ℕ} (hs : Settles par b)
    (hbF : b + 1 ≤ F) (hru : isRoot par ru) (hrv : isRoot par rv) (hne : ru ≠ rv)
    (u : ℕ) :
    ufFind F (Function.update par ru rv) u =
      (if ufFind F par u = ru then rv else ufFind F par u) := by
  have hrv' : isRoot (Function.update par ru rv) rv := by
    unfold isRoot
    rw [Function.update_noteq (fun e => hne e.symm)]
    exact hrv
  have hfind1 : ∀ x, x = ru → ∀ G, 1 ≤ G →
      ufFind G (Function.update par ru rv) x = rv := by
    intro x hx G hG
    have h1 : iterPar (Function.update par ru rv) 1 x = rv := by
      show Function.update par ru rv (iterPar (Function.update par ru rv) 0 x) = rv
      show Function.update par ru rv x = rv
      rw [hx, Function.update_same]
    exact (ufFind_eq_iterPar G 1 x hG (by rw [h1]; exact hrv')).trans h1
  have key : ∀ d u, isRoot par (iterPar par d u) → ∀ G, d + 1 ≤ G →
      ufFind G (Function.update par ru rv) u =
        (if iterPar par d u = ru then rv else iterPar par d u) := by
    intro d
    induction d with
    | zero =>
      intro u hu G hG
      have hz : iterPar par 0 u = u := rfl
      rw [hz]
      by_cases heq : u = ru
      · rw [if_pos heq]
        exact hfind1 u heq G hG
      · rw [if_neg heq]
        have h0 : isRoot (Function.update par ru rv)
            (iterPar (Function.update par ru rv) 0 u) := by
          show Function.update par ru rv u = u
          rw [Function.update_noteq heq]
          exact hu
        exact ufFind_eq_iterPar G 0 u (by omega) h0
    | succ d ih =>
      intro u hu G hG
      by_cases heq : u = ru
      · have hur : isRoot par u := by rw [heq]; exact hru
        rw [iterPar_of_isRoot hur (d + 1), if_pos heq]
        exact hfind1 u heq G (by omega)
      · by_cases hroot : par u = u
        · rw [iterPar_of_isRoot hroot (d + 1), if_neg heq]
          have h0 : isRoot (Function.update par ru rv)
              (iterPar (Function.update par ru rv) 0 u) := by
            show Function.update par ru rv u = u
            rw [Function.update_noteq heq]
            exact hroot
          exact ufFind_eq_iterPar G 0 u (by omega) h0
        · rw [iterPar_head] at hu ⊢
          cases G with
          | zero => omega
          | succ G₀ =>
            have hne' : Function.update par ru rv u ≠ u := by
              rw [Function.update_noteq heq]
              exact hroot
            rw [ufFind, if_neg hne', Function.update_noteq heq]
            exact ih (par u) hu G₀ (by omega)
  obtain ⟨d, hd, hroot⟩ := hs u
  rw [key d u hroot F (by omega), ufFind_eq_iterPar F d u (by omega) hroot]

lemma ufFind_mem {S : Finset ℕ} {par : ℕ → ℕ} (hpar : ∀ x ∈ S, par x ∈ S) :
    ∀ n {u}, u ∈ S → ufFind n par u ∈ S := by
  intro n
  induction n with
  | zero => intro u hu; exact hu
  | succ n ih =>
    intro u hu
    rw [ufFind]
    by_cases hroot : par u = u
    · rw [if_pos hroot]; exact hu
    · rw [if_neg hroot]; exact ih (hpar u hu)

/-! #### Equivalence-closure bookkeeping -/

lemma eqvGen_of_empty {R : ℕ → ℕ → Prop} (hR : ∀ x y, ¬ R x y) {u v : ℕ}
    (he : Relation.EqvGen R u v) : u = v := by
  induction he with
  | rel x y hxy => exact absurd hxy (hR x y)
  | refl x => rfl
  | symm x y _ ih => exact ih.symm
  | trans x y z _ _ ih1 ih2 => exact ih1.trans ih2

lemma eqvGen_congr {R R' : ℕ → ℕ → Prop} (hRR : ∀ x y, R x y ↔ R' x y) (u v : ℕ) :
    Relation.EqvGen R u v ↔ Relation.EqvGen R' u v :=
  ⟨Relation.EqvGen.mono (fun x y hxy => (hRR x y).1 hxy),
   Relation.EqvGen.mono (fun x y hxy => (hRR x y).2 hxy)⟩

/-- Adding one pair `(a, b)` to a relation extends its equivalence closure
in the canonical way. -/
lemma eqvGen_add_pair {R : ℕ → ℕ → Prop} {a b : ℕ} (u v : ℕ) :
    Relation.EqvGen (fun x y => R x y ∨ (x = a ∧ y = b)) u v ↔
      (Relation.EqvGen R u v ∨
       (Relation.EqvGen R u a ∧ Relation.EqvGen R b v) ∨
       (Relation.EqvGen R u b ∧ Relation.EqvGen R a v)) := by
  constructor
  · intro he
    induction he with
    | rel x y hxy =>
      rcases hxy with hRxy | ⟨rfl, rfl⟩
      · exact Or.inl (Relation.EqvGen.rel x y hRxy)
      · exact Or.inr (Or.inl ⟨Relation.EqvGen.refl x, Relation.EqvGen.refl y⟩)
    | refl x => exact Or.inl (Relation.EqvGen.refl x)
    | symm x y _ ih =>
      rcases ih with hL | ⟨h1, h2⟩ | ⟨h1, h2⟩
      · exact Or.inl (Relation.EqvGen.symm x y hL)
      · exact Or.inr (Or.inr ⟨Relation.EqvGen.symm _ _ h2, Relation.EqvGen.symm _ _ h1⟩)
      · exact Or.inr (Or.inl ⟨Relation.EqvGen.symm _ _ h2, Relation.EqvGen.symm _ _ h1⟩)
    | trans x y z _ _ ih1 ih2 =>
      rcases ih1 with hL1 | ⟨h1a, h1b⟩ | ⟨h1a, h1b⟩ <;>
        rcases ih2 with hL2 | ⟨h2a, h2b⟩ | ⟨h2a, h2b⟩
      · exact Or.inl (Relation.EqvGen.trans _ _ _ hL1 hL2)
      · exact Or.inr (Or.inl ⟨Relation.EqvGen.trans _ _ _ hL1 h2a, h2b⟩)
      · exact Or.inr (Or.inr ⟨Relation.EqvGen.trans _ _ _ hL1 h2a, h2b⟩)
      · exact Or.inr (Or.inl ⟨h1a, Relation.EqvGen.trans _ _ _ h1b hL2⟩)
      · exact Or.inl (Relation.EqvGen.trans _ _ _ h1a
          (Relation.EqvGen.trans _ _ _
            (Relation.EqvGen.symm _ _ (Relation.EqvGen.trans _ _ _ h1b h2a)) h2b))
      · exact Or.inl (Relation.EqvGen.trans _ _ _ h1a h2b)
      · exact Or.inr (Or.inr ⟨h1a, Relation.EqvGen.trans _ _ _ h1b hL2⟩)
      · exact Or.inl (Relation.EqvGen.trans _ _ _ h1a h2b)
      · exact Or.inl (Relation.EqvGen.trans _ _ _ h1a
          (Relation.EqvGen.trans _ _ _
            (Relation.EqvGen.symm _ _ (Relation.EqvGen.trans _ _ _ h1b h2a)) h2b))
  · have hmono : ∀ {x y : ℕ}, Relation.EqvGen R x y →
        Relation.EqvGen (fun x y => R x y ∨ (x = a ∧ y = b)) x y :=
      fun hxy => Relation.EqvGen.mono (fun x y hR => Or.inl hR) hxy
    have hab : Relation.EqvGen (fun x y => R x y ∨ (x = a ∧ y = b)) a b :=
      Relation.EqvGen.rel a b (Or.inr ⟨rfl, rfl⟩)
    rintro (hL | ⟨h1, h2⟩ | ⟨h1, h2⟩)
    · exact hmono hL
    · exact Relation.EqvGen.trans _ _ _ (Relation.EqvGen.trans _ _ _ (hmono h1) hab)
        (hmono h2)
    · exact Relation.EqvGen.trans _ _ _
        (Relation.EqvGen.trans _ _ _ (hmono h1) (Relation.EqvGen.symm _ _ hab))
        (hmono h2)

/-- Adding a pair already in the closure does not change the closure. -/
lemma eqvGen_add_redundant {R : ℕ → ℕ → Prop} {a b : ℕ}
    (hab : Relation.EqvGen R a b) (u v : ℕ) :
    Relation.EqvGen (fun x y => R x y ∨ (x = a ∧ y = b)) u v ↔
      Relation.EqvGen R u v := by
  rw [eqvGen_add_pair]
  constructor
  · rintro (hL | ⟨h1, h2⟩ | ⟨h1, h2⟩)
    · exact hL
    · exact Relation.EqvGen.trans _ _ _ (Relation.EqvGen.trans _ _ _ h1 hab) h2
    · exact Relation.EqvGen.trans _ _ _
        (Relation.EqvGen.trans _ _ _ h1 (Relation.EqvGen.symm _ _ hab)) h2
  · exact Or.inl

/-- The relation carried by a list of union pairs. -/
def pairRel (L : List (ℕ × ℕ)) (x y : ℕ) : Prop := (x, y) ∈ L

lemma pairRel_append (L : List (ℕ × ℕ)) (a b x y : ℕ) :
    pairRel (L ++ [(a, b)]) x y ↔ (pairRel L x y ∨ (x = a ∧ y = b)) := by
  unfold pairRel
  rw [List.mem_append, List.mem_singleton, Prod.mk.injEq]

/-- Invariant of the union loop: after processing `done` and then folding
`rest`, the parent map settles, fixes everything outside the label set `S`,
stays inside `S` on `S`, and identifies two labels exactly when they are
related by the equivalence closure of the processed pairs. -/
lemma uf_fold_invariant (S : Finset ℕ) (F : ℕ) :
    ∀ (rest done : List (ℕ × ℕ)) (par : ℕ → ℕ),
      (∀ ab ∈ rest, ab.1 ∈ S ∧ ab.2 ∈ S) →
      done.length + rest.length + 1 ≤ F →
      Settles par (done.length + 1) →
      (∀ u, u ∉ S → par u = u) →
      (∀ u ∈ S, par u ∈ S) →
      (∀ u v, ufFind F par u = ufFind F par v ↔
        Relation.EqvGen (pairRel done) u v) →
      Settles (rest.foldl (ufUnion F) par) (done.length + rest.length + 1) ∧
      (∀ u, u ∉ S → (rest.foldl (ufUnion F) par) u = u) ∧
      (∀ u ∈ S, (rest.foldl (ufUnion F) par) u ∈ S) ∧
      (∀ u v, ufFind F (rest.foldl (ufUnion F) par) u =
            ufFind F (rest.foldl (ufUnion F) par) v ↔
          Relation.EqvGen (pairRel (done ++ rest)) u v) := by
  intro rest
  induction rest with
  | nil =>
    intro done par hrS hF hsettles hout hin hiff
    rw [List.foldl_nil]
    have hlen : done.length + List.length ([] : List (ℕ × ℕ)) + 1 =
        done.length + 1 := by simp
    rw [hlen, List.append_nil]
    exact ⟨hsettles, hout, hin, hiff⟩
  | cons ab rest' ih =>
    intro done par hrS hF hsettles hout hin hiff
    obtain ⟨a, b⟩ := ab
    rw [List.foldl_cons]
    have haS : a ∈ S := (hrS (a, b) (List.mem_cons_self _ _)).1
    have hbS : b ∈ S := (hrS (a, b) (List.mem_cons_self _ _)).2
    have hlen1 : (done ++ [(a, b)]).length = done.length + 1 := by simp
    have hrestlen : ((a, b) :: rest').length = rest'.length + 1 := by simp
    have hassoc : (done ++ [(a, b)]) ++ rest' = done ++ ((a, b) :: rest') := by
      rw [List.append_assoc]; rfl
    have hrS' : ∀ ab ∈ rest', ab.1 ∈ S ∧ ab.2 ∈ S :=
      fun ab hab => hrS ab (List.mem_cons_of_mem _ hab)
    have hnewiff : ∀ u v, Relation.EqvGen (pairRel (done ++ [(a, b)])) u v ↔
        (Relation.EqvGen (pairRel done) u v ∨
         (Relation.EqvGen (pairRel done) u a ∧ Relation.EqvGen (pairRel done) b v) ∨
         (Relation.EqvGen (pairRel done) u b ∧ Relation.EqvGen (pairRel done) a v)) := by
      intro u v
      rw [eqvGen_congr (pairRel_append done a b) u v, eqvGen_add_pair u v]
    by_cases hcase : ufFind F par a = ufFind F par b
    · have hstep : ufUnion F par (a, b) = par := by
        unfold ufUnion
        rw [if_pos hcase]
      rw [hstep]
      have hredundant : Relation.EqvGen (pairRel done) a b := (hiff a b).1 hcase
      have hiff' : ∀ u v, ufFind F par u = ufFind F par v ↔
          Relation.EqvGen (pairRel (done ++ [(a, b)])) u v := by
        intro u v
        rw [hiff u v, eqvGen_congr (pairRel_append done a b) u v,
          eqvGen_add_redundant hredundant u v]
      have hres := ih (done ++ [(a, b)]) par hrS'
        (by rw [hlen1]; rw [hrestlen] at hF; omega)
        (by rw [hlen1]; exact hsettles.mono (by omega))
        hout hin hiff'
      rw [hlen1, hassoc] at hres
      rw [hrestlen]
      have hlen2 : done.length + 1 + rest'.length + 1 =
          done.length + (rest'.length + 1) + 1 := by omega
      rw [hlen2] at hres
      exact hres
    · have hruroot : isRoot par (ufFind F par a) :=
        ufFind_settles hsettles (by rw [hrestlen] at hF; omega) a
      have hrvroot : isRoot par (ufFind F par b) :=
        ufFind_settles hsettles (by rw [hrestlen] at hF; omega) b
      have hstep : ufUnion F par (a, b) =
          Function.update par (ufFind F par a) (ufFind F par b) := by
        unfold ufUnion
        rw [if_neg hcase]
      rw [hstep]
      have hruS : ufFind F par a ∈ S := ufFind_mem hin F haS
      have hrvS : ufFind F par b ∈ S := ufFind_mem hin F hbS
      have hsettles1 : Settles (Function.update par (ufFind F par a) (ufFind F par b))
          (done.length + 1 + 1) :=
        settles_update hsettles hruroot hrvroot hcase
      have hout1 : ∀ u, u ∉ S →
          Function.update par (ufFind F par a) (ufFind F par b) u = u := by
        intro u hu
        rw [Function.update_noteq (fun e => hu (by rw [e]; exact hruS))]
        exact hout u hu
      have hin1 : ∀ u ∈ S,
          Function.update par (ufFind F par a) (ufFind F par b) u ∈ S := by
        intro u hu
        by_cases he : u = ufFind F par a
        · rw [he, Function.update_same]; exact hrvS
        · rw [Function.update_noteq he]; exact hin u hu
      have hupd : ∀ u, ufFind F (Function.update par (ufFind F par a) (ufFind F par b)) u =
          (if ufFind F par u = ufFind F par a then ufFind F par b else ufFind F par u) :=
        ufFind_update hsettles (by rw [hrestlen] at hF; omega) hruroot hrvroot hcase
      have hiff1 : ∀ u v,
          ufFind F (Function.update par (ufFind F par a) (ufFind F par b)) u =
            ufFind F (Function.update par (ufFind F par a) (ufFind F par b)) v ↔
          Relation.EqvGen (pairRel (done ++ [(a, b)])) u v := by
        intro u v
        rw [hupd u, hupd v, hnewiff u v]
        by_cases hu : ufFind F par u = ufFind F par a <;>
          by_cases hv : ufFind F par v = ufFind F par a
        · rw [if_pos hu, if_pos hv]
          constructor
          · intro _
            exact Or.inl ((hiff u v).1 (hu.trans hv.symm))
          · intro _
            rfl
        · rw [if_pos hu, if_neg hv]
          constructor
          · intro he
            exact Or.inr (Or.inl ⟨(hiff u a).1 hu, (hiff b v).1 he⟩)
          · rintro (hL | ⟨h1, h2⟩ | ⟨h1, h2⟩)
            · exact absurd (((hiff u v).2 hL).symm.trans hu) hv
            · exact (hiff b v).2 h2
            · exact absurd ((hiff a v).2 h2).symm hv
        · rw [if_neg hu, if_pos hv]
          constructor
          · intro he
            exact Or.inr (Or.inr ⟨(hiff u b).1 he, (hiff a v).1 hv.symm⟩)
          · rintro (hL | ⟨h1, h2⟩ | ⟨h1, h2⟩)
            · exact absurd (((hiff u v).2 hL).trans hv) hu
            · exact absurd ((hiff u a).2 h1) hu
            · exact (hiff u b).2 h1
        · rw [if_neg hu, if_neg hv]
          constructor
          · intro he
            exact Or.inl ((hiff u v).1 he)
          · rintro (hL | ⟨h1, h2⟩ | ⟨h1, h2⟩)
            · exact (hiff u v).2 hL
            · exact absurd ((hiff u a).2 h1) hu
            · exact absurd ((hiff a v).2 h2).symm hv
      have hres := ih (done ++ [(a, b)])
        (Function.update par (ufFind F par a) (ufFind F par b)) hrS'
        (by rw [hlen1]; rw [hrestlen] at hF; omega)
        (by rw [hlen1]; exact hsettles1)
        hout1 hin1 hiff1
      rw [hlen1, hassoc] at hres
      rw [hrestlen]
      have hlen2 : done.length + 1 + rest'.length + 1 =
          done.length + (rest'.length + 1) + 1 := by omega
      rw [hlen2] at hres
      exact hres

/-- Characterization of the union-find output of one merge run: labels are
fixed outside the label set, stay inside it on it, and two labels share a
root exactly when they are related by the equivalence closure of
`touching`. -/
lemma rootOf_spec {h w : ℕ} (m : Img h w) :
    (∀ u, u ∉ labelsOf m → rootOf m u = u) ∧
    (∀ u ∈ labelsOf m, rootOf m u ∈ labelsOf m) ∧
    (∀ u v, rootOf m u = rootOf m v ↔ Relation.EqvGen (touching m) u v) := by
  have hrS : ∀ ab ∈ pairList m, ab.1 ∈ labelsOf m ∧ ab.2 ∈ labelsOf m := by
    intro ab hab
    obtain ⟨a, b⟩ := ab
    exact touching_mem_labelsOf (mem_pairList.1 hab)
  have hbase : ∀ u v : ℕ, ufFind (fuelOf m) id u = ufFind (fuelOf m) id v ↔
      Relation.EqvGen (pairRel ([] : List (ℕ × ℕ))) u v := by
    intro u v
    rw [ufFind_id, ufFind_id]
    constructor
    · rintro rfl
      exact Relation.EqvGen.refl u
    · intro he
      exact eqvGen_of_empty (fun x y hxy => List.not_mem_nil _ hxy) he
  have hinv := uf_fold_invariant (labelsOf m) (fuelOf m) (pairList m) [] id hrS
    (by unfold fuelOf; simp) (settles_id _) (fun u _ => rfl) (fun u hu => hu) hbase
  obtain ⟨hsettles, hout, hin, hiff⟩ := hinv
  have hfp : (pairList m).foldl (ufUnion (fuelOf m)) id = finalParent m := rfl
  rw [hfp] at hsettles hout hin hiff
  rw [List.nil_append] at hiff
  have htouchrel : ∀ x y, pairRel (pairList m) x y ↔ touching m x y :=
    fun x y => mem_pairList
  refine ⟨?_, ?_, ?_⟩
  · intro u hu
    unfold rootOf
    exact ufFind_eq_iterPar (fuelOf m) 0 u (Nat.zero_le _) (hout u hu)
  · intro u hu
    exact ufFind_mem hin (fuelOf m) hu
  · intro u v
    rw [show rootOf m u = ufFind (fuelOf m) (finalParent m) u from rfl,
      show rootOf m v = ufFind (fuelOf m) (finalParent m) v from rfl,
      hiff u v, eqvGen_congr htouchrel u v]

lemma rootOf_ne_zero {h w : ℕ} {m : Img h w} {u : ℕ} (hu : u ∈ labelsOf m) :
    rootOf m u ≠ 0 := by
  intro he
  have := (rootOf_spec m).2.1 u hu
  rw [he] at this
  exact zero_not_mem_labelsOf m this

lemma mergedMat_eq_zero_iff {h w : ℕ} {m : Img h w} (p : Pos h w) :
    mergedMat m p = 0 ↔ m p = 0 := by
  unfold mergedMat
  by_cases hp : m p = 0
  · rw [if_pos hp]
    exact ⟨fun _ => hp, fun _ => rfl⟩
  · rw [if_neg hp]
    constructor
    · intro he
      exact absurd he (rootOf_ne_zero (mem_labelsOf.2 ⟨hp, p, rfl⟩))
    · intro he
      exact absurd he hp

lemma labelsOf_mergedMat {h w : ℕ} (m : Img h w) :
    labelsOf (mergedMat m) = (labelsOf m).image (rootOf m) := by
  ext v
  rw [mem_labelsOf, Finset.mem_image]
  constructor
  · rintro ⟨hv, p, hp⟩
    unfold mergedMat at hp
    by_cases hp0 : m p = 0
    · rw [if_pos hp0] at hp
      exact absurd hp.symm hv
    · rw [if_neg hp0] at hp
      exact ⟨m p, mem_labelsOf.2 ⟨hp0, p, rfl⟩, hp⟩
  · rintro ⟨u, hu, he⟩
    obtain ⟨hu0, p, hp⟩ := mem_labelsOf.1 hu
    refine ⟨by rw [← he]; exact rootOf_ne_zero hu, p, ?_⟩
    unfold mergedMat
    rw [hp, if_neg hu0, he]

lemma relabelSeq_eq_zero_iff {h w : ℕ} {m : Img h w} (p : Pos h w) :
    relabelSeq m p = 0 ↔ m p = 0 := by
  unfold relabelSeq
  by_cases hp : m p = 0
  · rw [if_pos hp]
    exact ⟨fun _ => hp, fun _ => rfl⟩
  · rw [if_neg hp]
    constructor
    · intro he
      have := rankIn_pos (mem_labelsOf.2 ⟨hp, p, rfl⟩)
      omega
    · intro he
      exact absurd he hp

lemma relabelSeq_eq_iff {h w : ℕ} {m : Img h w} {p q : Pos h w}
    (hp : m p ≠ 0) (hq : m q ≠ 0) :
    relabelSeq m p = relabelSeq m q ↔ m p = m q := by
  unfold relabelSeq
  rw [if_neg hp, if_neg hq]
  constructor
  · intro he
    exact rankIn_inj (mem_labelsOf.2 ⟨hp, p, rfl⟩) (mem_labelsOf.2 ⟨hq, q, rfl⟩) he
  · intro he
    rw [he]

lemma labelsOf_relabelSeq {h w : ℕ} (m : Img h w) :
    labelsOf (relabelSeq m) = Finset.Icc 1 (labelsOf m).card := by
  ext v
  rw [mem_labelsOf, ← image_rankIn (labelsOf m), Finset.mem_image]
  constructor
  · rintro ⟨hv, p, hp⟩
    unfold relabelSeq at hp
    by_cases hp0 : m p = 0
    · rw [if_pos hp0] at hp
      exact absurd hp.symm hv
    · rw [if_neg hp0] at hp
      exact ⟨m p, mem_labelsOf.2 ⟨hp0, p, rfl⟩, hp⟩
  · rintro ⟨u, hu, he⟩
    obtain ⟨hu0, p, hp⟩ := mem_labelsOf.1 hu
    have hv : v ≠ 0 := by
      have := rankIn_pos hu
      omega
    refine ⟨hv, p, ?_⟩
    unfold relabelSeq
    rw [hp, if_neg hu0, he]

/-- Two labels belong to the same merge class: the equivalence closure of
`touching`. -/
def touchEqv {h w : ℕ} (m : Img h w) (u v : ℕ) : Prop :=
  Relation.EqvGen (touching m) u v

instance {h w : ℕ} (m : Img h w) (u v : ℕ) : Decidable (touchEqv m u v) :=
  decidable_of_iff (rootOf m u = rootOf m v) ((rootOf_spec m).2.2 u v)

lemma touchEqv_refl {h w : ℕ} (m : Img h w) (u : ℕ) : touchEqv m u u :=
  Relation.EqvGen.refl u

lemma touchEqv_symm {h w : ℕ} {m : Img h w} {u v : ℕ} (he : touchEqv m u v) :
    touchEqv m v u :=
  Relation.EqvGen.symm u v he

lemma touchEqv_trans {h w : ℕ} {m : Img h w} {u v x : ℕ} (h1 : touchEqv m u v)
    (h2 : touchEqv m v x) : touchEqv m u x :=
  Relation.EqvGen.trans u v x h1 h2

/-- The least label of the merge class of `a` among the labels of `m`. -/
def classMin {h w : ℕ} (m : Img h w) (a : ℕ) : ℕ :=
  if hne : ((labelsOf m).filter (touchEqv m a)).Nonempty
  then ((labelsOf m).filter (touchEqv m a)).min' hne else 0

/-- The number of merge equivalence classes of the labels of `m`. -/
def numClasses {h w : ℕ} (m : Img h w) : ℕ :=
  ((labelsOf m).image (classMin m)).card

lemma classMin_eq_of_eqv {h w : ℕ} {m : Img h w} {a b : ℕ}
    (hab : touchEqv m a b) : classMin m a = classMin m b := by
  have hset : (labelsOf m).filter (touchEqv m a) =
      (labelsOf m).filter (touchEqv m b) := by
    ext x
    rw [Finset.mem_filter, Finset.mem_filter]
    constructor
    · rintro ⟨hx, he⟩
      exact ⟨hx, touchEqv_trans (touchEqv_symm hab) he⟩
    · rintro ⟨hx, he⟩
      exact ⟨hx, touchEqv_trans hab he⟩
  unfold classMin
  simp only [hset]

lemma classMin_self_mem {h w : ℕ} {m : Img h w} {a : ℕ} (ha : a ∈ labelsOf m) :
    classMin m a ∈ (labelsOf m).filter (touchEqv m a) := by
  have hne : ((labelsOf m).filter (touchEqv m a)).Nonempty :=
    ⟨a, Finset.mem_filter.2 ⟨ha, touchEqv_refl m a⟩⟩
  unfold classMin
  rw [dif_pos hne]
  exact Finset.min'_mem _ hne

lemma eqv_of_classMin_eq {h w : ℕ} {m : Img h w} {a b : ℕ}
    (ha : a ∈ labelsOf m) (hb : b ∈ labelsOf m)
    (he : classMin m a = classMin m b) : touchEqv m a b := by
  have h1 := Finset.mem_filter.1 (classMin_self_mem ha)
  have h2 := Finset.mem_filter.1 (classMin_self_mem hb)
  rw [he] at h1
  exact touchEqv_trans h1.2 (touchEqv_symm h2.2)

/-- Two functions with identical fibers on a finite set have images of the
same size. -/
lemma card_image_eq_of_fiber_iff {s : Finset ℕ} {f g : ℕ → ℕ}
    (hfg : ∀ a ∈ s, ∀ b ∈ s, (f a = f b ↔ g a = g b)) :
    (s.image f).card = (s.image g).card := by
  induction s using Finset.induction_on with
  | empty => simp
  | insert hnotmem ih =>
    rename_i a s'
    rw [Finset.image_insert, Finset.image_insert]
    have hmemiff : f a ∈ s'.image f ↔ g a ∈ s'.image g := by
      simp only [Finset.mem_image]
      constructor
      · rintro ⟨b, hb, he⟩
        exact ⟨b, hb, (hfg b (Finset.mem_insert_of_mem hb) a
          (Finset.mem_insert_self a s')).1 he⟩
      · rintro ⟨b, hb, he⟩
        exact ⟨b, hb, (hfg b (Finset.mem_insert_of_mem hb) a
          (Finset.mem_insert_self a s')).2 he⟩
    have hfg' : ∀ x ∈ s', ∀ y ∈ s', (f x = f y ↔ g x = g y) :=
      fun x hx y hy =>
        hfg x (Finset.mem_insert_of_mem hx) y (Finset.mem_insert_of_mem hy)
    by_cases hmem : f a ∈ s'.image f
    · rw [Finset.card_insert_of_mem hmem,
        Finset.card_insert_of_mem (hmemiff.1 hmem)]
      exact ih hfg'
    · rw [Finset.card_insert_of_not_mem hmem,
        Finset.card_insert_of_not_mem (fun hg => hmem (hmemiff.2 hg)),
        ih hfg']

/-- The merged matrix carries exactly one label per merge class. -/
lemma card_labelsOf_mergedMat {h w : ℕ} (m : Img h w) :
    (labelsOf (mergedMat m)).card = numClasses m := by
  rw [labelsOf_mergedMat]
  unfold numClasses
  apply card_image_eq_of_fiber_iff
  intro a ha b hb
  rw [(rootOf_spec m).2.2 a b]
  constructor
  · intro he
    exact classMin_eq_of_eqv he
  · intro he
    exact eqv_of_classMin_eq ha hb he

/-- Output foreground equals input foreground, pointwise. -/
lemma merge_support {h w : ℕ} (m : Img h w) (p : Pos h w) :
    merge_touching_labels m p = 0 ↔ m p = 0 := by
  unfold merge_touching_labels
  by_cases hL : labelsOf m = ∅
  · rw [if_pos hL]
  · rw [if_neg hL, relabelSeq_eq_zero_iff, mergedMat_eq_zero_iff]

/-- Two foreground pixels get the same output label exactly when their
input labels are joined by the closure of `touching`. -/
lemma merge_eq_iff {h w : ℕ} (m : Img h w) {p q : Pos h w} (hp : m p ≠ 0)
    (hq : m q ≠ 0) :
    merge_touching_labels m p = merge_touching_labels m q ↔
      Relation.EqvGen (touching m) (m p) (m q) := by
  have hL : labelsOf m ≠ ∅ := by
    intro hL
    have := mem_labelsOf.2 ⟨hp, p, rfl⟩
    rw [hL] at this
    exact Finset.not_mem_empty _ this
  unfold merge_touching_labels
  rw [if_neg hL]
  have hmp : mergedMat m p ≠ 0 := fun he => hp ((mergedMat_eq_zero_iff p).1 he)
  have hmq : mergedMat m q ≠ 0 := fun he => hq ((mergedMat_eq_zero_iff q).1 he)
  rw [relabelSeq_eq_iff hmp hmq]
  unfold mergedMat
  rw [if_neg hp, if_neg hq]
  exact (rootOf_spec m).2.2 (m p) (m q)

/-- The output labels are exactly `{1, …, N}` for `N` merge classes. -/
lemma merge_values {h w : ℕ} (m : Img h w) :
    labelsOf (merge_touching_labels m) = Finset.Icc 1 (numClasses m) := by
  unfold merge_touching_labels
  by_cases hL : labelsOf m = ∅
  · rw [if_pos hL, hL]
    unfold numClasses
    rw [hL]
    simp
  · rw [if_neg hL, labelsOf_relabelSeq, card_labelsOf_mergedMat]

/-- The output of a merge has no touching pair of labels left. -/
lemma merge_no_touching {h w : ℕ} (m : Img h w) (u v : ℕ) :
    ¬ touching (merge_touching_labels m) u v := by
  rintro ⟨hu, hv, huv, p, q, hadj, hp, hq⟩
  have hmp : m p ≠ 0 := fun he => hu (by rw [← hp, (merge_support m p).2 he])
  have hmq : m q ≠ 0 := fun he => hv (by rw [← hq, (merge_support m q).2 he])
  have heq : merge_touching_labels m p = merge_touching_labels m q := by
    rw [merge_eq_iff m hmp hmq]
    by_cases hval : m p = m q
    · rw [hval]
      exact Relation.EqvGen.refl (m q)
    · exact Relation.EqvGen.rel _ _ ⟨hmp, hmq, hval, p, q, hadj, rfl, rfl⟩
  rw [hp, hq] at heq
  exact huv heq

lemma pairList_eq_nil_of_no_touching {h w : ℕ} {m : Img h w}
    (hnt : ∀ u v, ¬ touching m u v) : pairList m = [] := by
  rw [List.eq_nil_iff_forall_not_mem]
  rintro ⟨x, y⟩ hmem
  exact hnt x y (mem_pairList.1 hmem)

/-- A matrix with no touching labels and already-sequential labels is a
fixpoint of the merge. -/
lemma merge_fixpoint {h w : ℕ} (o : Img h w)
    (hnt : ∀ u v, ¬ touching o u v)
    (hvals : labelsOf o = Finset.Icc 1 (labelsOf o).card) :
    merge_touching_labels o = o := by
  by_cases hL : labelsOf o = ∅
  · unfold merge_touching_labels
    rw [if_pos hL]
  · unfold merge_touching_labels
    rw [if_neg hL]
    have hfp : finalParent o = id := by
      unfold finalParent
      rw [pairList_eq_nil_of_no_touching hnt, List.foldl_nil]
    have hroot : ∀ u, rootOf o u = u := by
      intro u
      unfold rootOf
      rw [hfp, ufFind_id]
    have hmerged : mergedMat o = o := by
      funext p
      unfold mergedMat
      by_cases hp : o p = 0
      · rw [if_pos hp, hp]
      · rw [if_neg hp, hroot]
    rw [hmerged]
    funext p
    unfold relabelSeq
    by_cases hp : o p = 0
    · rw [if_pos hp, hp]
    · rw [if_neg hp]
      have hmem : o p ∈ labelsOf o := mem_labelsOf.2 ⟨hp, p, rfl⟩
      rw [hvals] at hmem ⊢
      exact rankIn_Icc hmem

/-- C2: `merge_touching_labels` identifies two foreground pixels exactly
when their labels are joined by the equivalence closure of 8-adjacent
touching (so each resulting class gets one distinct label), and the output
label set is exactly `{1, …, N}` for `N` merge classes. -/
theorem merge_touching_labels_spec {h w : ℕ} (m : Img h w) :
    (∀ p q : Pos h w, m p ≠ 0 → m q ≠ 0 →
      (merge_touching_labels m p = merge_touching_labels m q ↔
        Relation.EqvGen (touching m) (m p) (m q))) ∧
    labelsOf (merge_touching_labels m) = Finset.Icc 1 (numClasses m) :=
  ⟨fun _ _ hp hq => merge_eq_iff m hp hq, merge_values m⟩

/-- A 1×2 label matrix with labels 1 and 2 on 8-adjacent pixels. -/
def mtExample : Img 1 2 := fun p => if p.2.val = 0 then 1 else 2

theorem merge_touching_labels_spec_witness :
    merge_touching_labels mtExample (0, 0) = merge_touching_labels mtExample (0, 1) :=
  ((merge_touching_labels_spec mtExample).1 (0, 0) (0, 1) (by decide)
      (by decide)).mpr
    (Relation.EqvGen.rel _ _ (by decide))

/-- C3: the output of `merge_touching_labels` is nonzero exactly where the
input is (foreground pixel count unchanged), and an input carrying exactly
two distinct touching labels comes out with the single label 1 over the
combined support. -/
theorem merge_touching_labels_support_spec {h w : ℕ} (m : Img h w) :
    (∀ p : Pos h w, merge_touching_labels m p = 0 ↔ m p = 0) ∧
    (Finset.univ.filter (fun p => merge_touching_labels m p ≠ 0)).card =
      (Finset.univ.filter (fun p => m p ≠ 0)).card ∧
    (∀ a b : ℕ, a ≠ b → labelsOf m = {a, b} → touching m a b →
      ∀ p : Pos h w, merge_touching_labels m p = if m p = 0 then 0 else 1) := by
  refine ⟨merge_support m, ?_, ?_⟩
  · have hflt : (Finset.univ.filter (fun p => merge_touching_labels m p ≠ 0)) =
        (Finset.univ.filter (fun p : Pos h w => m p ≠ 0)) := by
      ext p
      rw [Finset.mem_filter, Finset.mem_filter]
      constructor
      · rintro ⟨h1, h2⟩
        exact ⟨h1, fun he => h2 ((merge_support m p).2 he)⟩
      · rintro ⟨h1, h2⟩
        exact ⟨h1, fun he => h2 ((merge_support m p).1 he)⟩
    rw [hflt]
  · intro a b hab hset ht p
    by_cases hp : m p = 0
    · rw [if_pos hp]
      exact (merge_support m p).2 hp
    · rw [if_neg hp]
      have hnum : numClasses m = 1 := by
        unfold numClasses
        rw [hset]
        have hcm : classMin m b = classMin m a :=
          classMin_eq_of_eqv
            (Relation.EqvGen.symm _ _ (Relation.EqvGen.rel a b ht))
        rw [Finset.image_insert, Finset.image_singleton, hcm,
          Finset.card_insert_of_mem (Finset.mem_singleton_self _),
          Finset.card_singleton]
      have hne0 : merge_touching_labels m p ≠ 0 :=
        fun he => hp ((merge_support m p).1 he)
      have hmem : merge_touching_labels m p ∈ labelsOf (merge_touching_labels m) :=
        mem_labelsOf.2 ⟨hne0, p, rfl⟩
      rw [merge_values, hnum] at hmem
      have := Finset.mem_Icc.1 hmem
      omega

theorem merge_touching_labels_support_spec_witness :
    merge_touching_labels mtExample (0, 1) =
      if mtExample (0, 1) = 0 then 0 else 1 :=
  (merge_touching_labels_support_spec mtExample).2.2 1 2 (by decide) (by decide)
    (by decide) (0, 1)

/-- C9: the output of `merge_touching_labels` carries no 8-adjacent pair of
differing nonzero labels (adjacent foreground pixels agree), and the merge
is idempotent: applied to its own output it returns an equal matrix. -/
theorem merge_touching_labels_idempotent {h w : ℕ} (m : Img h w) :
    (∀ p q : Pos h w, adj8 p q → merge_touching_labels m p ≠ 0 →
      merge_touching_labels m q ≠ 0 →
      merge_touching_labels m p = merge_touching_labels m q) ∧
    merge_touching_labels (merge_touching_labels m) = merge_touching_labels m := by
  constructor
  · intro p q hadj hp hq
    by_contra hne
    exact merge_no_touching m _ _ ⟨hp, hq, hne, p, q, hadj, rfl, rfl⟩
  · apply merge_fixpoint
    · exact merge_no_touching m
    · rw [merge_values, Nat.card_Icc, Nat.add_sub_cancel]

theorem merge_touching_labels_idempotent_witness :
    merge_touching_labels (merge_touching_labels mtExample) =
        merge_touching_labels mtExample ∧
      merge_touching_labels mtExample (0, 0) =
        merge_touching_labels mtExample (0, 1) :=
  ⟨(merge_touching_labels_idempotent mtExample).2,
   (merge_touching_labels_idempotent mtExample).1 (0, 0) (0, 1) (by decide)
     (by decide) (by decide)⟩

/-! ### Quantification record (cell "Quantify nuclei and cell properties")

For each non-nucleus channel `i`, the notebook records
```
labels_dict[...] = [..., len(np.unique(im_assigned[:, :, i])[1:]),
                    tuple(np.unique(im_assigned[1:, :, i])[1:]), ...]
```
Note the object count is taken from the full channel matrix while the
"Shared labels" tuple is taken from `im_assigned[1:, :, i]` — the matrix
with its first row dropped. -/

/-- Insert into an ascending list. -/
def insertAsc (x : ℕ) : List ℕ → List ℕ
  | [] => [x]
  | y :: ys => if x ≤ y then x :: y :: ys else y :: insertAsc x ys

/-- Modelled library call `np.unique`: the distinct values, ascending. -/
def npUnique (l : List ℕ) : List ℕ := l.dedup.foldr insertAsc []

/-- The values of a channel matrix in scan order (`im_assigned[:, :, i]`). -/
def valuesList {h w : ℕ} (m : Img h w) : List ℕ := (posList h w).map m

/-- The values with the first row dropped (`im_assigned[1:, :, i]`). -/
def valuesNoFirstRow {h w : ℕ} (m : Img h w) : List ℕ :=
  ((posList h w).filter (fun p => decide (1 ≤ p.1.val))).map m

/-- `len(np.unique(im_assigned[:, :, i])[1:])` — the recorded object count. -/
def numberRec {h w : ℕ} (m : Img h w) : ℕ :=
  ((npUnique (valuesList m)).drop 1).length

/-- `tuple(np.unique(im_assigned[1:, :, i])[1:])` — the recorded shared
nucleus labels. -/
def sharedRec {h w : ℕ} (m : Img h w) : List ℕ :=
  (npUnique (valuesNoFirstRow m)).drop 1

/-- A 2×2 assigned channel whose label 1 appears only in the first row. -/
def c5Example : Img 2 2 := fun p =>
  if p.1.val = 0 then 1 else (if p.2.val = 0 then 0 else 2)

/-- C5 exhibits: on `c5Example` the recorded count is 2 and the distinct
nonzero labels are `{1, 2}`, but the recorded shared-label tuple is `(2,)`
(label 1, present only in the dropped first row, is missing), so the
recorded count differs from the size of the recorded shared set. -/
theorem labels_dict_shared_bug :
    numberRec c5Example = 2 ∧
      labelsOf c5Example = {1, 2} ∧
      sharedRec c5Example = [2] ∧
      (sharedRec c5Example).length ≠ numberRec c5Example := by
  refine ⟨by decide, by decide, by decide, by decide⟩

/-! ### Per-nucleus spreadsheet rows (cell "Export quantification results")

```
for k in range(1, int(labels_df['Number'][0])):
    row = [labels_df['Mean positions [um]'][0][k-1], labels_df['Nuclei size [um2]'][0][k-1]]
    ...
    xlsx_dict[k] = row
```
`range(1, N)` enumerates `1, …, N-1`: with `N` segmented nuclei, the sheet
gets rows for nuclei `1, …, N-1` only. -/

/-- The per-nucleus sheet: one entry per loop iteration, keyed by `k`, with
the centroid `positions[k-1]` and area `sizes[k-1]` of nucleus `k`. -/
def nucleiSheet (n : ℕ) (pos : ℕ → ℚ × ℚ) (siz : ℕ → ℚ) :
    List (ℕ × (ℚ × ℚ) × ℚ) :=
  (List.range' 1 (n - 1)).map (fun k => (k, pos (k - 1), siz (k - 1)))

/-- C6 exhibits: the sheet's row keys are `1, …, N-1`; nucleus `N` itself
never receives a row (for `N = 1` the sheet is empty). -/
theorem nucleiSheet_missing_last (n : ℕ) (pos : ℕ → ℚ × ℚ) (siz : ℕ → ℚ) :
    ((nucleiSheet n pos siz).map Prod.fst = List.range' 1 (n - 1)) ∧
    (1 ≤ n → n ∉ (nucleiSheet n pos siz).map Prod.fst) ∧
    (nucleiSheet n pos siz).length = n - 1 := by
  have hkeys : (nucleiSheet n pos siz).map Prod.fst = List.range' 1 (n - 1) := by
    unfold nucleiSheet
    rw [List.map_map]
    have : (Prod.fst ∘ fun k => ((k, pos (k - 1), siz (k - 1)) : ℕ × (ℚ × ℚ) × ℚ)) =
        id := by
      funext k
      rfl
    rw [this, List.map_id]
  refine ⟨hkeys, ?_, ?_⟩
  · intro hn hmem
    rw [hkeys] at hmem
    have := List.mem_range'_1.1 hmem
    omega
  · unfold nucleiSheet
    rw [List.length_map, List.length_range']

theorem nucleiSheet_missing_last_witness :
    ((nucleiSheet 1 (fun _ => (0, 0)) (fun _ => 0)).map Prod.fst =
        List.range' 1 0) ∧
      1 ∉ (nucleiSheet 1 (fun _ => (0, 0)) (fun _ => 0)).map Prod.fst :=
  ⟨(nucleiSheet_missing_last 1 (fun _ => (0, 0)) (fun _ => 0)).1,
   (nucleiSheet_missing_last 1 (fun _ => (0, 0)) (fun _ => 0)).2.1 (by decide)⟩

/-! ### Setup (calibration) loading, cell "Acquisition processing setup"

```
use_setup = True
...
if use_setup and os.path.exists(setup_path):
    stain_setup_df = pd.read_csv(setup_path); ...
    for idx in stain_complete_df.index:
        if idx in stain_setup_df.index:
            stain_complete_df.loc[idx] = stain_setup_df.loc[idx]
        else:
            use_setup = False
if not use_setup or not os.path.exists(setup_path):
    ... napari viewer; record contrast/gamma for every idx ...
```
The filesystem is modelled by an `Option`-valued file (`none` = the CSV is
absent; `f k = none` = key `k` has no row), and the interactive
recalibration by a function `recal` giving the values the user chooses. -/

/-- One calibration entry: contrast limits and gamma. -/
structure CalEntry where
  cmin : ℤ
  cmax : ℤ
  gamma : ℚ
deriving DecidableEq

/-- The copy loop over the stain-table keys: a present key overwrites the
table entry; a missing key clears `use_setup` (the flag stays cleared, and
the loop continues copying the remaining present keys, as in the source). -/
def setupLoadLoop {K : Type} [DecidableEq K] (f : K → Option CalEntry)
    (keys : List K) (tbl : K → CalEntry) : (K → CalEntry) × Bool :=
  keys.foldl
    (fun st k =>
      (if (f k).isSome then Function.update st.1 k ((f k).getD (st.1 k)) else st.1,
       st.2 && (f k).isSome))
    (tbl, true)

/-- The whole setup cell: reuse the stored calibration when the file exists
and every key is present; otherwise run the interactive recalibration
(which sets the values of every key).  The boolean records whether the
persisted calibration was reused. -/
def setupStep {K : Type} [DecidableEq K] (file? : Option (K → Option CalEntry))
    (keys : List K) (tbl recal : K → CalEntry) : (K → CalEntry) × Bool :=
  let st := match file? with
    | some f => setupLoadLoop f keys tbl
    | none => (tbl, true)
  if st.2 = false ∨ file?.isNone = true then
    (keys.foldl (fun t k => Function.update t k (recal k)) st.1, false)
  else (st.1, true)

lemma setupLoadLoop_val {K : Type} [DecidableEq K] (f : K → Option CalEntry) :
    ∀ (keys : List K) (tbl : K → CalEntry) (b : Bool) (x : K),
      (keys.foldl
        (fun st k =>
          (if (f k).isSome then Function.update st.1 k ((f k).getD (st.1 k))
           else st.1,
           st.2 && (f k).isSome))
        (tbl, b)).1 x =
      (if (f x).isSome ∧ x ∈ keys then (f x).getD (tbl x) else tbl x) := by
  intro keys
  induction keys with
  | nil =>
    intro tbl b x
    rw [List.foldl_nil, if_neg (fun hand => List.not_mem_nil x hand.2)]
  | cons k ks ih =>
    intro tbl b x
    simp only [List.foldl_cons]
    rw [ih]
    by_cases hxk : x = k
    · subst hxk
      by_cases hfx : (f x).isSome
      · obtain ⟨e, he⟩ := Option.isSome_iff_exists.1 hfx
        simp [he, Function.update_same]
      · simp only [Bool.not_eq_true] at hfx
        simp [hfx]
    · by_cases hfk : (f k).isSome
      · obtain ⟨e, he⟩ := Option.isSome_iff_exists.1 hfk
        simp only [he, Option.isSome_some, if_true, Function.update_noteq hxk,
          List.mem_cons]
        by_cases hcond : (f x).isSome ∧ x ∈ ks
        · rw [if_pos hcond, if_pos ⟨hcond.1, Or.inr hcond.2⟩]
        · rw [if_neg hcond, if_neg (fun hand => hcond ⟨hand.1, by
            rcases hand.2 with hh | hh
            · exact absurd hh hxk
            · exact hh⟩)]
      · simp only [Bool.not_eq_true] at hfk
        simp only [hfk, Option.isSome_none, Bool.false_eq_true, if_false,
          List.mem_cons]
        by_cases hcond : (f x).isSome ∧ x ∈ ks
        · rw [if_pos hcond, if_pos ⟨hcond.1, Or.inr hcond.2⟩]
        · rw [if_neg hcond, if_neg (fun hand => hcond ⟨hand.1, by
            rcases hand.2 with hh | hh
            · exact absurd hh hxk
            · exact hh⟩)]

lemma setupLoadLoop_flag {K : Type} [DecidableEq K] (f : K → Option CalEntry) :
    ∀ (keys : List K) (tbl : K → CalEntry) (b : Bool),
      (keys.foldl
        (fun st k =>
          (if (f k).isSome then Function.update st.1 k ((f k).getD (st.1 k))
           else st.1,
           st.2 && (f k).isSome))
        (tbl, b)).2 =
      (b && keys.all (fun k => (f k).isSome)) := by
  intro keys
  induction keys with
  | nil =>
    intro tbl b
    rw [List.foldl_nil, List.all_nil, Bool.and_true]
  | cons k ks ih =>
    intro tbl b
    simp only [List.foldl_cons, List.all_cons]
    rw [ih, Bool.and_assoc]

lemma recalLoop_val {K : Type} [DecidableEq K] (recal : K → CalEntry) :
    ∀ (keys : List K) (t0 : K → CalEntry) (x : K),
      (keys.foldl (fun t k => Function.update t k (recal k)) t0) x =
        (if x ∈ keys then recal x else t0 x) := by
  intro keys
  induction keys with
  | nil =>
    intro t0 x
    rw [List.foldl_nil, if_neg (List.not_mem_nil x)]
  | cons k ks ih =>
    intro t0 x
    rw [List.foldl_cons, ih]
    by_cases hx : x ∈ ks
    · rw [if_pos hx, if_pos (List.mem_cons_of_mem k hx)]
    · rw [if_neg hx]
      by_cases hxk : x = k
      · rw [if_pos (by rw [hxk]; exact List.mem_cons_self _ _), hxk,
          Function.update_same]
      · rw [if_neg (fun hmem => by
          rcases List.mem_cons.1 hmem with he | hm
          · exact hxk he
          · exact hx hm)]
        rw [Function.update_noteq hxk]

/-- C7: the persisted calibration is reused exactly when the setup file
exists and contains an entry for every stain-table key; in that case the
stored entries are taken, and in every other case the cell silently falls
back to the interactive recalibration values — no error path exists. -/
theorem setup_reuse_spec {K : Type} [DecidableEq K]
    (file? : Option (K → Option CalEntry)) (keys : List K)
    (tbl recal : K → CalEntry) :
    ((setupStep file? keys tbl recal).2 = true ↔
      ∃ f, file? = some f ∧ ∀ k ∈ keys, (f k).isSome = true) ∧
    (∀ f, file? = some f → (∀ k ∈ keys, (f k).isSome = true) →
      ∀ k ∈ keys, (setupStep file? keys tbl recal).1 k = (f k).getD (tbl k)) ∧
    ((setupStep file? keys tbl recal).2 = false →
      ∀ k ∈ keys, (setupStep file? keys tbl recal).1 k = recal k) := by
  rcases hfile : file? with - | f
  · unfold setupStep
    simp only [Option.isNone_none]
    rw [if_pos (Or.inr trivial)]
    refine ⟨by simp, by simp, ?_⟩
    intro _ k hk
    show List.foldl (fun t k => Function.update t k (recal k)) tbl keys k = recal k
    rw [recalLoop_val recal keys tbl k, if_pos hk]
  · unfold setupStep
    simp only [Option.isNone_some]
    have hflag : (setupLoadLoop f keys tbl).2 = keys.all (fun k => (f k).isSome) := by
      unfold setupLoadLoop
      rw [setupLoadLoop_flag f keys tbl true, Bool.true_and]
    by_cases hall : keys.all (fun k => (f k).isSome) = true
    · have hflag' : (setupLoadLoop f keys tbl).2 = true := by rw [hflag, hall]
      rw [if_neg (by
        rintro (hfalse | hnone)
        · rw [hflag'] at hfalse
          exact Bool.noConfusion hfalse
        · exact Bool.noConfusion hnone)]
      refine ⟨?_, ?_, ?_⟩
      · constructor
        · intro _
          exact ⟨f, rfl, fun k hk => List.all_eq_true.1 hall k hk⟩
        · intro _
          exact rfl
      · intro f' hf' hsome k hk
        have hff : f' = f := Option.some_injective _ hf'.symm
        subst hff
        show (setupLoadLoop f' keys tbl).1 k = _
        unfold setupLoadLoop
        rw [setupLoadLoop_val f' keys tbl true k,
          if_pos ⟨hsome k hk, hk⟩]
      · intro hfalse
        exact Bool.noConfusion hfalse
    · have hflag' : (setupLoadLoop f keys tbl).2 = false := by
        rw [hflag]
        exact Bool.eq_false_iff.2 hall
      rw [if_pos (Or.inl hflag')]
      refine ⟨?_, ?_, ?_⟩
      · constructor
        · intro hfalse
          exact Bool.noConfusion hfalse
        · rintro ⟨f', hf', hsome⟩
          have hff : f' = f := Option.some_injective _ hf'.symm
          subst hff
          exact absurd (List.all_eq_true.2 hsome) hall
      · intro f' hf' hsome k hk
        have hff : f' = f := Option.some_injective _ hf'.symm
        subst hff
        exact absurd (List.all_eq_true.2 hsome) hall
      · intro _ k hk
        show List.foldl (fun t k => Function.update t k (recal k))
          (setupLoadLoop f keys tbl).1 keys k = recal k
        rw [recalLoop_val recal keys _ k, if_pos hk]

/-- A one-key setup file for the witness. -/
def c7file : ℕ → Option CalEntry := fun k =>
  if k = 0 then some ⟨10, 200, 1⟩ else none

theorem setup_reuse_spec_witness :
    (setupStep (some c7file) [0] (fun _ => ⟨0, 255, 1⟩)
        (fun _ => ⟨0, 255, 1⟩)).2 = true ∧
      (setupStep (some c7file) [0] (fun _ => ⟨0, 255, 1⟩)
          (fun _ => ⟨0, 255, 1⟩)).1 0 =
        (c7file 0).getD ⟨0, 255, 1⟩ :=
  ⟨(setup_reuse_spec (some c7file) [0] (fun _ => ⟨0, 255, 1⟩)
      (fun _ => ⟨0, 255, 1⟩)).1.mpr ⟨c7file, rfl, by decide⟩,
   (setup_reuse_spec (some c7file) [0] (fun _ => ⟨0, 255, 1⟩)
      (fun _ => ⟨0, 255, 1⟩)).2.1 c7file rfl (by decide) 0 (by decide)⟩


/-! ### Stain registry nuclei check (cell "Define staining dictionary")

```
if 'NUCLEI' not in stain_df.index:
    print('No nuclei condition!')
```
The cell's observable behavior on the condition list: a list of warnings
printed and the (unchanged) conditions. -/

/-- The nuclei check: warnings printed and resulting condition list. -/
def stainRegistryCheck (conds : List String) : List String × List String :=
  (if "NUCLEI" ∈ conds then [] else ["No nuclei condition!"], conds)

/-- C8: the check never alters the stain table and, when the `NUCLEI`
condition is absent, only a warning is emitted (the function is total — no
exception path exists). -/
theorem stain_registry_check_spec (conds : List String) :
    (stainRegistryCheck conds).2 = conds ∧
    ("NUCLEI" ∉ conds →
      (stainRegistryCheck conds).1 = ["No nuclei condition!"]) := by
  refine ⟨rfl, ?_⟩
  intro hmem
  show (if "NUCLEI" ∈ conds then [] else ["No nuclei condition!"]) = _
  rw [if_neg hmem]

theorem stain_registry_check_spec_witness :
    (stainRegistryCheck ["MACRO", "M2"]).1 = ["No nuclei condition!"] :=
  (stain_registry_check_spec ["MACRO", "M2"]).2 (by decide)

/-! ### contr_limit (cell "Functions")

```
def contr_limit(im_in, c_min, c_max):
    alpha = 255.0 / (c_max - c_min)
    beta = -c_min * alpha
    return np.clip(alpha * im_in + beta, 0.0, 255.0).astype(int)
```
Pixel values and contrast limits are modelled as exact rationals;
`np.clip(x, 0, 255)` is `min (max x 0) 255` and, the clipped value being
nonnegative, the `astype(int)` truncation equals the floor. -/

/-- `contr_limit(im_in, c_min, c_max)`. -/
def contr_limit {h w : ℕ} (im : Pos h w → ℚ) (cmin cmax : ℚ) : Pos h w → ℤ :=
  fun p =>
    ⌊min (max (255 / (cmax - cmin) * im p + (-cmin) * (255 / (cmax - cmin))) 0)
      255⌋

/-- `contr_limit` with its division guarded: `none` marks the error branch
of the unguarded `255.0 / (c_max - c_min)`. -/
def contr_limit_checked {h w : ℕ} (im : Pos h w → ℚ) (cmin cmax : ℚ) :
    Option (Pos h w → ℤ) :=
  if cmax - cmin = 0 then none else some (contr_limit im cmin cmax)

/-- C10: the division-by-zero branch is reachable exactly when
`c_max = c_min`, and under the precondition `c_min < c_max` every output
pixel is an integer in `[0, 255]`. -/
theorem contr_limit_spec {h w : ℕ} (im : Pos h w → ℚ) (cmin cmax : ℚ) :
    (contr_limit_checked im cmin cmax = none ↔ cmax = cmin) ∧
    (cmin < cmax →
      contr_limit_checked im cmin cmax = some (contr_limit im cmin cmax) ∧
      ∀ p, 0 ≤ contr_limit im cmin cmax p ∧ contr_limit im cmin cmax p ≤ 255) := by
  constructor
  · unfold contr_limit_checked
    by_cases hz : cmax - cmin = 0
    · rw [if_pos hz]
      simp [sub_eq_zero.1 hz]
    · rw [if_neg hz]
      constructor
      · intro he
        exact absurd he (Option.some_ne_none _)
      · intro he
        exact absurd (by rw [he]; exact sub_self cmin) hz
  · intro hlt
    constructor
    · unfold contr_limit_checked
      rw [if_neg (fun hz => absurd (sub_eq_zero.1 hz) (ne_of_gt hlt))]
    · intro p
      unfold contr_limit
      set v := 255 / (cmax - cmin) * im p + (-cmin) * (255 / (cmax - cmin)) with hv
      constructor
      · rw [Int.le_floor]
        push_cast
        exact le_min (le_max_right v 0) (by norm_num)
      · calc ⌊min (max v 0) 255⌋ ≤ ⌊(255 : ℚ)⌋ :=
              Int.floor_le_floor (min_le_right _ _)
        _ = 255 := by norm_num

theorem contr_limit_spec_witness :
    contr_limit_checked (h := 1) (w := 1) (fun _ => 100) 10 210 =
        some (contr_limit (fun _ => 100) 10 210) ∧
      0 ≤ contr_limit (h := 1) (w := 1) (fun _ => 100) 10 210 (0, 0) ∧
        contr_limit (h := 1) (w := 1) (fun _ => 100) 10 210 (0, 0) ≤ 255 :=
  ⟨((contr_limit_spec (fun _ => 100) 10 210).2 (by norm_num)).1,
   ((contr_limit_spec (fun _ => 100) 10 210).2 (by norm_num)).2 (0, 0)⟩

end Fluo
